import Mathlib

/-!
# Verification of the cornedbeef Swiss-table hash map (fifth.rs and friends)

Shallow embedding of the `kylematsuda/cornedbeef` Swiss-tables-style hash map.
The main embedding follows `src/fifth.rs` (the SIMD-metadata map) together with
its helpers from `src/metadata.rs` and `src/sse.rs`.  The capacity policy of
the earlier drafts (`src/third.rs`, `src/second.rs`, `src/lib.rs`) is embedded
separately where a claim cites those files.

Modelling conventions:
* `usize`/`u64` values are `Nat`; wrap-around is made explicit (`% 2 ^ 64`)
  exactly where the Rust source relies on wrapping (`wrapping_sub`).
* `MaybeUninit<(K, V)>` slots are `Option (K × V)`; `none` is uninitialized.
  The source reads a slot only under cover of a FULL metadata byte, so a read
  of an uninitialized slot (undefined behaviour in Rust) is modelled as the
  non-matching / panicking branch.
* Fallible control flow (the `unreachable!` in `probe_find`, propagated by
  `get`, `insert`, `remove`, `resize`) is modelled with `Option`: a result of
  `none` at the outermost layer means the Rust code panics, and `some r`
  means it returns `r`.
-/

set_option maxHeartbeats 1000000
set_option maxRecDepth 8192
set_option linter.unusedSectionVars false

namespace Cornedbeef

/-- `sse.rs`: `pub const GROUP_SIZE: usize = 16`. -/
def GROUP_SIZE : Nat := 16

/-! ## metadata.rs -/

namespace metadata

/-- `metadata.rs`: `pub type Metadata = u8`. -/
abbrev Metadata := Nat

/-- `metadata.rs`: `const EMPTY: u8 = 0x80`. -/
def EMPTY : Nat := 0x80

/-- `metadata.rs`: `const TOMBSTONE: u8 = 0xFE`. -/
def TOMBSTONE : Nat := 0xFE

/-- `metadata.rs`: `const MASK: u8 = 0x7F`. -/
def MASK : Nat := 0x7F

/-- `metadata.rs`: `from_h2(h2) = h2 & MASK`. -/
def from_h2 (h2 : Nat) : Metadata := h2 &&& MASK

/-- `metadata.rs`: `empty() = EMPTY`. -/
def empty : Metadata := EMPTY

/-- `metadata.rs`: `tombstone() = TOMBSTONE`. -/
def tombstone : Metadata := TOMBSTONE

/-- `metadata.rs`: `is_empty(m) = (m == EMPTY)`. -/
def is_empty (m : Metadata) : Bool := m == EMPTY

/-- `metadata.rs`: `is_full(m) = ((m & 0x80) == 0)`. -/
def is_full (m : Metadata) : Bool := (m &&& 0x80) == 0

/-- `metadata.rs`: `h2(m) = m & MASK`. -/
def h2 (m : Metadata) : Nat := m &&& MASK

end metadata

/-! ## sse.rs

A `Group` is the 16 metadata bytes a 16-byte SIMD load reads; masks are the
per-lane boolean results of the SIMD byte comparisons.  `MaskIter::forward`
(repeated trailing-zero count) yields the indices of set lanes in ascending
order; `find_first`/`find_last` take the first / last set lane. -/

namespace sse

/-- A group: the list of 16 metadata bytes covered by one SIMD load. -/
abbrev Group := List Nat

/-- `sse.rs`: `Group::from_slice` reads the first 16 bytes of a slice. -/
def Group.from_slice (s : List Nat) : Group := s.take 16

/-- Modelled from the spec: `Group::from_array` is used by fifth.rs `resize`
but `sse.rs` as provided has no `from_array`; §4.3 describes a group as a
16-byte vector of metadata, so building one from a 16-element chunk is the
identity. -/
def Group.from_array (s : List Nat) : Group := s

/-- `sse.rs`: `to_empties` = lane-wise equality against broadcast `EMPTY`. -/
def Group.to_empties (g : Group) : List Bool := g.map (fun b => b == metadata.EMPTY)

/-- `sse.rs`: `to_candidates h2` = lane-wise equality against broadcast `h2`. -/
def Group.to_candidates (g : Group) (h2 : Nat) : List Bool := g.map (fun b => b == h2)

/-- Modelled from the spec: `to_fulls` is used by fifth.rs `resize` but is
missing from the provided `sse.rs`; §4.3: "`to_fulls() → Mask16` — used during
resize; lane-wise 'high bit is zero'". -/
def Group.to_fulls (g : Group) : List Bool := g.map (fun b => (b >>> 7) == 0)

/-- Ascending indices of the set lanes of a mask, starting at lane `i0`:
the semantics of `MaskIter::forward` (repeated trailing-zeros). -/
def maskFwdAux : List Bool → Nat → List Nat
  | [], _ => []
  | b :: rest, i => if b then i :: maskFwdAux rest (i + 1) else maskFwdAux rest (i + 1)

/-- `MaskIter::forward` as the list of set-lane indices in ascending order. -/
def maskFwd (mask : List Bool) : List Nat := maskFwdAux mask 0

/-- Index of the first set lane (trailing-zeros scan), if any. -/
def find_firstAux : List Bool → Nat → Option Nat
  | [], _ => none
  | b :: rest, i => if b then some i else find_firstAux rest (i + 1)

/-- `sse.rs`: `find_first(mask)` — first set lane or `none`. -/
def find_first (mask : List Bool) : Option Nat := find_firstAux mask 0

/-- `sse.rs`: `find_last(mask)` — last set lane or `none`; the source computes
it as `15 - leading_zeros` on the 16-bit mask, i.e. the first set lane of the
reversed mask, mapped through `15 - ·`. -/
def find_last (mask : List Bool) : Option Nat :=
  (find_firstAux mask.reverse 0).map (fun i => 15 - i)

end sse

/-! ## Free functions of lib.rs used by fifth.rs -/

/-- Modelled from the spec: fifth.rs imports `crate::fast_rem`, whose
definition is not among the provided sources.  §4.1 prescribes reduction by
bitmask: "index = h1 & (capacity − 1)", valid because capacity is a power of
two (I5).  With `Nat` truncated subtraction a capacity of `0` yields mask `0`
(matching a saturating implementation of the bitmask trick). -/
def fast_rem (x m : Nat) : Nat := x &&& (m - 1)

/-- `usize::wrapping_sub` (used by fifth.rs with `GROUP_SIZE`): two's
complement subtraction modulo `2 ^ 64`. -/
def wrappingSub64 (a b : Nat) : Nat := (a + (2 ^ 64 - b)) % 2 ^ 64

/-- Modelled from the spec: fifth.rs calls `crate::fix_capacity`, not among
the provided sources.  §4.4: "Capacity policy (§4.5 `fix_capacity`):
requested 0 → 0; 1..15 → 16; larger → next power of two ≥ the request."
(The inline capacity computation of the earlier drafts is embedded
separately as `thirdWithCapacityCapacity` below.) -/
def fix_capacity (c : Nat) : Nat :=
  if c = 0 then 0
  else if c < 16 then 16
  else if 2 ^ Nat.log2 c = c then c else 2 ^ (Nat.log2 c + 1)

/-- `lib.rs` `make_hash`: the hash builder produces a `u64` hash of the key.
The builder is modelled as an arbitrary function `K → Nat`, truncated to
64 bits. -/
def make_hash {K : Type} (hasher : K → Nat) (k : K) : Nat := hasher k % 2 ^ 64

/-! ## fifth.rs: the map -/

/-- `fifth.rs` `ProbeResult` (without the panic case, which the embedding
models as `none` at the `Option` layer). -/
inductive ProbeResult where
  | Empty (index : Nat) (h2 : Nat)
  | Full (index : Nat)
deriving DecidableEq

/-- `fifth.rs` `Map`: `storage` is the `capacity`-length array of
possibly-uninitialized `(K, V)` slots, `metadata` the `capacity + 16` byte
array (mirror tail included).  The hash builder is an arbitrary function. -/
structure Map (K V : Type) where
  hasher : K → Nat
  n_items : Nat
  n_occupied : Nat
  storage : List (Option (K × V))
  metadata : List Nat

namespace Map

variable {K V : Type} [DecidableEq K]

/-- `fifth.rs` `n_buckets()` = `self.storage.len()`. -/
def n_buckets (m : Map K V) : Nat := m.storage.length

/-- `fifth.rs` `with_capacity`. -/
def with_capacity (hasher : K → Nat) (capacity : Nat) : Map K V :=
  let c := fix_capacity capacity
  { hasher := hasher
    n_items := 0
    n_occupied := 0
    storage := List.replicate c none
    metadata := if c = 0 then [] else List.replicate (c + GROUP_SIZE) metadata.empty }

/-- `fifth.rs` `new()` = `with_capacity(0)`. -/
def new (hasher : K → Nat) : Map K V := with_capacity hasher 0

/-- `fifth.rs` `len()`. -/
def len (m : Map K V) : Nat := m.n_items

/-- `fifth.rs` `is_empty()`. -/
def isEmptyMap (m : Map K V) : Bool := m.n_items == 0

/-- `fifth.rs` `bucket_index_and_h2`: split the 64-bit hash into
`h1 = hash >> 7` and `h2 = hash & 0x7F`, and reduce `h1` by `fast_rem`. -/
def bucket_index_and_h2 (m : Map K V) (k : K) : Nat × Nat :=
  let hash := make_hash m.hasher k
  (fast_rem (hash >>> 7) m.n_buckets, hash &&& 0x7F)

/-- The body of the candidate loop of fifth.rs `probe_find`: for candidate
lane `i` of the group at `current`, compare the stored key at
`fast_rem(current + i, n_buckets)` against `k`; on a match, report that
index.  Reading an uninitialized slot (UB in Rust) is modelled as a failed
comparison. -/
def candTest (m : Map K V) (k : K) (current i : Nat) : Option Nat :=
  let index := fast_rem (current + i) m.n_buckets
  match m.storage.getD index none with
  | some kv => if kv.1 = k then some index else none
  | none => none

/-- The candidate scan of one probe group (fifth.rs `probe_find`, inner
`for i in candidates` loop): iterate the set lanes of `to_candidates h2`
in ascending order, applying `candTest` until a key matches. -/
def probeCandidates (m : Map K V) (k : K) (h2 current : Nat) : Option Nat :=
  (sse.maskFwd ((sse.Group.from_slice (m.metadata.drop current)).to_candidates h2)).findSome?
    (candTest m k current)

/-- One iteration of fifth.rs `probe_find`'s outer loop, at the group
starting at `current` (already reduced): candidates first, then the first
empty lane. -/
def stepResult (m : Map K V) (k : K) (h2 current : Nat) : Option ProbeResult :=
  match probeCandidates m k h2 current with
  | some index => some (.Full index)
  | none =>
    match sse.find_first ((sse.Group.from_slice (m.metadata.drop current)).to_empties) with
    | some i => some (.Empty (fast_rem (current + i) m.n_buckets) h2)
    | none => none

/-- The outer loop of fifth.rs `probe_find`: `for step in 0..n_buckets`,
with `current = fast_rem(current + step * GROUP_SIZE, n_buckets)` updated
per iteration.  Falling off the loop is the `unreachable!` panic, `none`. -/
def probeGo (m : Map K V) (k : K) (h2 : Nat) : List Nat → Nat → Option ProbeResult
  | [], _ => none
  | step :: rest, current0 =>
    let current := fast_rem (current0 + step * GROUP_SIZE) m.n_buckets
    match stepResult m k h2 current with
    | some r => some r
    | none => probeGo m k h2 rest current

/-- `fifth.rs` `probe_find`; `none` is the `unreachable!` panic. -/
def probe_find (m : Map K V) (k : K) : Option ProbeResult :=
  let p := m.bucket_index_and_h2 k
  probeGo m k p.2 (List.range m.n_buckets) p.1

/-- `fifth.rs` `set_metadata`: write `value` at `fast_rem(index, n)` and at
`fast_rem(index.wrapping_sub(GROUP_SIZE), n) + GROUP_SIZE`. -/
def set_metadata (m : Map K V) (index : Nat) (value : Nat) : Map K V :=
  let i := fast_rem index m.n_buckets
  let i2 := fast_rem (wrappingSub64 i GROUP_SIZE) m.n_buckets + GROUP_SIZE
  { m with metadata := (m.metadata.set i value).set i2 value }

/-- `fifth.rs` `get`; the outer `Option` layer is panic (`none` = the
`unreachable!` reached through `probe_find`, or a UB read), and the inner
layer is the return value (`some none` = the function returns `None`). -/
def get (m : Map K V) (k : K) : Option (Option V) :=
  match m.probe_find k with
  | some (.Empty _ _) => some none
  | some (.Full index) =>
    match m.storage.getD index none with
    | some kv => some (some kv.2)
    | none => none
  | none => none

/-- `fifth.rs` `_insert`; returns the updated map and the replaced value,
or `none` when the code panics. -/
def _insert (m : Map K V) (k : K) (v : V) : Option (Map K V × Option V) :=
  match m.probe_find k with
  | some (.Empty index h2) =>
    let m1 := m.set_metadata index (metadata.from_h2 h2)
    some ({ m1 with
              storage := m1.storage.set index (some (k, v))
              n_items := m1.n_items + 1
              n_occupied := m1.n_occupied + 1 }, none)
  | some (.Full index) =>
    match m.storage.getD index none with
    | some kv => some ({ m with storage := m.storage.set index (some (kv.1, v)) }, some kv.2)
    | none => none
  | none => none

/-- `fifth.rs` `needs_resize`: `n_buckets == 0 || (n_occupied * 8) / n_buckets > 7`
(integer division, as in the source). -/
def needs_resize (m : Map K V) : Bool :=
  m.n_buckets == 0 || (m.n_occupied * 8) / m.n_buckets > 7

/-- Fuel-driven worker for `chunksExact16` (structural recursion so that
concrete executions reduce inside the kernel; the fuel `l.length` always
suffices). -/
def chunksExact16Go {α : Type} : Nat → List α → List (List α)
  | 0, _ => []
  | fuel + 1, l => if l.length < 16 then [] else l.take 16 :: chunksExact16Go fuel (l.drop 16)

/-- Exact 16-chunks of a list, dropping the remainder: the semantics of
`Vec::into_iter().array_chunks::<GROUP_SIZE>()` used by fifth.rs `resize`. -/
def chunksExact16 {α : Type} (l : List α) : List (List α) :=
  chunksExact16Go l.length l

/-- The freshly allocated table `resize` starts from: all-uninitialized
storage, all-EMPTY metadata of length `capacity + GROUP_SIZE`, zero
counters. -/
def freshTable (hasher : K → Nat) (capacity : Nat) : Map K V :=
  { hasher := hasher
    n_items := 0
    n_occupied := 0
    storage := List.replicate capacity none
    metadata := List.replicate (capacity + GROUP_SIZE) metadata.empty }

/-- The body of the inner rehash loop of fifth.rs `resize`: move one old
bucket into the new table when its full-mask lane is set (`_insert`,
discarding the returned old value); reading an uninitialized bucket under a
set lane is UB, modelled as the panic `none`. -/
def resizeMoveBucket (acc : Map K V) (fb : Bool × Option (K × V)) : Option (Map K V) :=
  if fb.1 then
    match fb.2 with
    | some kv => (acc._insert kv.1 kv.2).map Prod.fst
    | none => none
  else pure acc

/-- The body of the outer rehash loop of fifth.rs `resize`: compute the
full-mask of one metadata chunk and move the full buckets of the zipped
storage chunk. -/
def resizeMoveChunk (acc : Map K V)
    (chunk : List metadata.Metadata × List (Option (K × V))) : Option (Map K V) :=
  let full_mask := (sse.Group.from_array chunk.1).to_fulls
  (full_mask.zip chunk.2).foldlM resizeMoveBucket acc

/-- `fifth.rs` `resize`: double (or create at 16), then reinsert every FULL
bucket of the old table, iterating the old metadata and storage in zipped
16-chunks (which skips the mirror tail). -/
def resize (m : Map K V) : Option (Map K V) :=
  let capacity := if m.n_buckets = 0 then 16 else m.n_buckets * 2
  let fresh : Map K V := freshTable m.hasher capacity
  ((chunksExact16 m.metadata).zip (chunksExact16 m.storage)).foldlM resizeMoveChunk fresh

/-- `fifth.rs` `insert`: resize if needed, then `_insert`. -/
def insert (m : Map K V) (k : K) (v : V) : Option (Map K V × Option V) :=
  if m.needs_resize then m.resize.bind (fun m2 => m2._insert k v)
  else m._insert k v

/-- `fifth.rs` `decide_tombstone_or_empty`. -/
def decide_tombstone_or_empty (m : Map K V) (index : Nat) : metadata.Metadata :=
  if m.n_buckets = GROUP_SIZE then metadata.empty
  else
    let probe_current := sse.Group.from_slice (m.metadata.drop index)
    let next_empty := (sse.find_first probe_current.to_empties).getD GROUP_SIZE
    let previous := fast_rem (wrappingSub64 index GROUP_SIZE) m.n_buckets
    let probe_previous := sse.Group.from_slice (m.metadata.drop previous)
    let last_empty := (sse.find_last probe_previous.to_empties).getD 0
    if (next_empty + GROUP_SIZE) - last_empty < GROUP_SIZE then metadata.empty
    else metadata.tombstone

/-- `fifth.rs` `remove`. -/
def remove (m : Map K V) (k : K) : Option (Map K V × Option V) :=
  match m.probe_find k with
  | some (.Empty _ _) => some (m, none)
  | some (.Full index) =>
    match m.storage.getD index none with
    | some kv =>
      let m1 : Map K V := { m with storage := m.storage.set index none }
      let metadata_value := m1.decide_tombstone_or_empty index
      let m2 := m1.set_metadata index metadata_value
      some ({ m2 with
                n_items := m2.n_items - 1
                n_occupied :=
                  if metadata.is_empty metadata_value then m2.n_occupied - 1
                  else m2.n_occupied }, some kv.2)
    | none => none
  | none => none

/-- `fifth.rs` `Clone::clone`: a fresh table of the same number of buckets
(`with_capacity(n_buckets)`; the `assert_eq!` there always passes because
`fix_capacity` is the identity on `0` and on powers of two ≥ 16), then for
each FULL bucket of the source, write the cloned pair into the fresh
storage, then set the metadata and bump both counters. -/
def clone (m : Map K V) : Map K V :=
  (List.range m.n_buckets).foldl
    (fun other i =>
      if metadata.is_full (m.metadata.getD i 0) then
        match m.storage.getD i none with
        | some kv =>
          let o1 : Map K V := { other with storage := other.storage.set i (some kv) }
          let o2 := o1.set_metadata i (m.metadata.getD i 0)
          { o2 with n_items := o2.n_items + 1, n_occupied := o2.n_occupied + 1 }
        | none => other
      else other)
    (with_capacity m.hasher m.n_buckets)

end Map

/-! ## Arithmetic bridges -/

theorem fast_rem_pow2 (x : Nat) {n kpow : Nat} (h : n = 2 ^ kpow) : fast_rem x n = x % n := by
  subst h
  simp [fast_rem, Nat.and_pow_two_sub_one_eq_mod x kpow]

theorem fast_rem_lt (x : Nat) {n kpow : Nat} (h : n = 2 ^ kpow) (hn : 0 < n) :
    fast_rem x n < n := by
  rw [fast_rem_pow2 x h]
  exact Nat.mod_lt _ hn

theorem fast_rem_wrappingSub (i : Nat) {n kpow : Nat} (h : n = 2 ^ kpow) (h4 : 4 ≤ kpow)
    (h64 : kpow ≤ 64) : fast_rem (wrappingSub64 i GROUP_SIZE) n = (i + (n - 16)) % n := by
  have hdvd : n ∣ 2 ^ 64 := h ▸ pow_dvd_pow 2 h64
  have h16 : 16 ≤ n := by
    calc (16 : Nat) = 2 ^ 4 := rfl
    _ ≤ 2 ^ kpow := Nat.pow_le_pow_right (by norm_num) h4
    _ = n := h.symm
  have hle : n ≤ 2 ^ 64 := Nat.le_of_dvd (by norm_num) hdvd
  rw [fast_rem_pow2 _ h, wrappingSub64, Nat.mod_mod_of_dvd _ hdvd]
  have hsplit : i + (2 ^ 64 - GROUP_SIZE) = (i + (n - 16)) + (2 ^ 64 - n) := by
    unfold GROUP_SIZE
    omega
  have hz : (2 ^ 64 - n) % n = 0 := by
    obtain ⟨c, hc⟩ := hdvd
    have hc1 : 1 ≤ c := by
      rcases Nat.eq_zero_or_pos c with h0 | h1
      · subst h0; simp at hc
      · exact h1
    have : 2 ^ 64 - n = n * (c - 1) := by
      rw [hc]
      cases c with
      | zero => omega
      | succ c' => simp [Nat.mul_succ]
    rw [this]
    exact Nat.mul_mod_right _ _
  rw [hsplit, Nat.add_mod, hz, Nat.add_zero, Nat.mod_mod]

/-! ## Generic scan lemmas

`laneScan` is the semantic form of iterating the set lanes of a mask in
ascending order (`MaskIter::forward`) and applying a partial function to
each lane index until one succeeds. -/

def laneScan {α : Type} (f : Nat → Option α) : List Bool → Nat → Option α
  | [], _ => none
  | b :: rest, i =>
    if b then
      match f i with
      | some x => some x
      | none => laneScan f rest (i + 1)
    else laneScan f rest (i + 1)

theorem findSome?_maskFwdAux {α : Type} (f : Nat → Option α) (mask : List Bool) (i0 : Nat) :
    (sse.maskFwdAux mask i0).findSome? f = laneScan f mask i0 := by
  induction mask generalizing i0 with
  | nil => rfl
  | cons b rest ih =>
    cases b <;> simp only [sse.maskFwdAux, laneScan, if_true, if_false, Bool.false_eq_true,
      List.findSome?_cons, ih]
    cases f i0 <;> simp

theorem laneScan_eq_none_iff {α : Type} (f : Nat → Option α) (mask : List Bool) (i0 : Nat) :
    laneScan f mask i0 = none ↔
      ∀ l, l < mask.length → mask.getD l false = true → f (i0 + l) = none := by
  induction mask generalizing i0 with
  | nil => simp [laneScan]
  | cons b rest ih =>
    cases b with
    | false =>
      rw [laneScan, if_neg (by simp), ih]
      constructor
      · intro h l hl hset
        match l, hl, hset with
        | l' + 1, hl, hset =>
          have e : i0 + (l' + 1) = i0 + 1 + l' := by omega
          rw [e]
          exact h l' (by simpa using hl) (by simpa using hset)
      · intro h l hl hset
        have e : i0 + 1 + l = i0 + (l + 1) := by omega
        rw [e]
        exact h (l + 1) (by simpa using hl) (by simpa using hset)
    | true =>
      rw [laneScan, if_pos rfl]
      cases hf : f i0 with
      | some x =>
        simp only [reduceCtorEq, false_iff]
        intro h
        have := h 0 (by simp) (by simp)
        rw [Nat.add_zero, hf] at this
        exact Option.noConfusion this
      | none =>
        rw [ih]
        constructor
        · intro h l hl hset
          match l, hl, hset with
          | 0, _, _ => simpa using hf
          | l' + 1, hl, hset =>
            have e : i0 + (l' + 1) = i0 + 1 + l' := by omega
            rw [e]
            exact h l' (by simpa using hl) (by simpa using hset)
        · intro h l hl hset
          have e : i0 + 1 + l = i0 + (l + 1) := by omega
          rw [e]
          exact h (l + 1) (by simpa using hl) (by simpa using hset)

theorem laneScan_eq_some_iff {α : Type} (f : Nat → Option α) (mask : List Bool) (i0 : Nat)
    (x : α) :
    laneScan f mask i0 = some x ↔
      ∃ l, l < mask.length ∧ mask.getD l false = true ∧ f (i0 + l) = some x ∧
        ∀ l', l' < l → mask.getD l' false = true → f (i0 + l') = none := by
  induction mask generalizing i0 with
  | nil => simp [laneScan]
  | cons b rest ih =>
    cases b with
    | false =>
      rw [laneScan, if_neg (by simp), ih]
      constructor
      · rintro ⟨l, hl, hset, hfl, hmin⟩
        refine ⟨l + 1, by simpa using hl, by simpa using hset, ?_, ?_⟩
        · have e : i0 + (l + 1) = i0 + 1 + l := by omega
          rw [e]
          exact hfl
        · intro l' hl' hset'
          match l', hl', hset' with
          | l'' + 1, hl', hset' =>
            have e : i0 + (l'' + 1) = i0 + 1 + l'' := by omega
            rw [e]
            exact hmin l'' (by omega) (by simpa using hset')
      · rintro ⟨l, hl, hset, hfl, hmin⟩
        match l, hl, hset, hfl, hmin with
        | l' + 1, hl, hset, hfl, hmin =>
          refine ⟨l', by simpa using hl, by simpa using hset, ?_, ?_⟩
          · have e : i0 + 1 + l' = i0 + (l' + 1) := by omega
            rw [e]
            exact hfl
          · intro l'' hl'' hset''
            have e : i0 + 1 + l'' = i0 + (l'' + 1) := by omega
            rw [e]
            exact hmin (l'' + 1) (by omega) (by simpa using hset'')
    | true =>
      rw [laneScan, if_pos rfl]
      cases hf : f i0 with
      | some y =>
        constructor
        · intro h
          refine ⟨0, by simp, by simp, ?_, by omega⟩
          rw [Nat.add_zero, hf]
          exact h
        · rintro ⟨l, hl, hset, hfl, hmin⟩
          match l, hl, hset, hfl, hmin with
          | 0, _, _, hfl, _ =>
            rw [Nat.add_zero, hf] at hfl
            exact hfl
          | l' + 1, _, _, _, hmin =>
            have := hmin 0 (by omega) (by simp)
            rw [Nat.add_zero, hf] at this
            exact Option.noConfusion this
      | none =>
        rw [ih]
        constructor
        · rintro ⟨l, hl, hset, hfl, hmin⟩
          refine ⟨l + 1, by simpa using hl, by simpa using hset, ?_, ?_⟩
          · have e : i0 + (l + 1) = i0 + 1 + l := by omega
            rw [e]
            exact hfl
          · intro l' hl' hset'
            match l', hl', hset' with
            | 0, _, _ => simpa using hf
            | l'' + 1, hl', hset' =>
              have e : i0 + (l'' + 1) = i0 + 1 + l'' := by omega
              rw [e]
              exact hmin l'' (by omega) (by simpa using hset')
        · rintro ⟨l, hl, hset, hfl, hmin⟩
          match l, hl, hset, hfl, hmin with
          | 0, _, _, hfl, _ =>
            rw [Nat.add_zero, hf] at hfl
            exact Option.noConfusion hfl
          | l' + 1, hl, hset, hfl, hmin =>
            refine ⟨l', by simpa using hl, by simpa using hset, ?_, ?_⟩
            · have e : i0 + 1 + l' = i0 + (l' + 1) := by omega
              rw [e]
              exact hfl
            · intro l'' hl'' hset''
              have e : i0 + 1 + l'' = i0 + (l'' + 1) := by omega
              rw [e]
              exact hmin (l'' + 1) (by omega) (by simpa using hset'')

theorem find_firstAux_eq_none_iff (mask : List Bool) (i0 : Nat) :
    sse.find_firstAux mask i0 = none ↔ ∀ l, l < mask.length → mask.getD l false = false := by
  induction mask generalizing i0 with
  | nil => simp [sse.find_firstAux]
  | cons b rest ih =>
    cases b with
    | false =>
      rw [sse.find_firstAux, if_neg (by simp), ih]
      constructor
      · intro h l hl
        match l, hl with
        | 0, _ => simp
        | l' + 1, hl => simpa using h l' (by simpa using hl)
      · intro h l hl
        simpa using h (l + 1) (by simpa using hl)
    | true =>
      rw [sse.find_firstAux, if_pos rfl]
      simp only [reduceCtorEq, false_iff]
      intro h
      simpa using h 0 (by simp)

theorem find_firstAux_eq_some_iff (mask : List Bool) (i0 j : Nat) :
    sse.find_firstAux mask i0 = some j ↔
      ∃ l, l < mask.length ∧ j = i0 + l ∧ mask.getD l false = true ∧
        ∀ l', l' < l → mask.getD l' false = false := by
  induction mask generalizing i0 with
  | nil => simp [sse.find_firstAux]
  | cons b rest ih =>
    cases b with
    | false =>
      rw [sse.find_firstAux, if_neg (by simp), ih]
      constructor
      · rintro ⟨l, hl, hj, hset, hmin⟩
        refine ⟨l + 1, by simpa using hl, by omega, by simpa using hset, ?_⟩
        intro l' hl'
        match l', hl' with
        | 0, _ => simp
        | l'' + 1, hl' => simpa using hmin l'' (by omega)
      · rintro ⟨l, hl, hj, hset, hmin⟩
        match l, hl, hj, hset, hmin with
        | 0, _, _, hset, _ => simp at hset
        | l' + 1, hl, hj, hset, hmin =>
          refine ⟨l', by simpa using hl, by omega, by simpa using hset, ?_⟩
          intro l'' hl''
          simpa using hmin (l'' + 1) (by omega)
    | true =>
      rw [sse.find_firstAux, if_pos rfl]
      simp only [Option.some.injEq]
      constructor
      · intro h
        exact ⟨0, by simp, by omega, by simp, by omega⟩
      · rintro ⟨l, hl, hj, hset, hmin⟩
        match l, hl, hj, hset, hmin with
        | 0, _, hj, _, _ => omega
        | l' + 1, _, _, _, hmin =>
          have := hmin 0 (by omega)
          simp at this

/-! ## Bytes, lanes and windows

`byteAt m i` is the physical metadata byte at position `i`; thanks to the
mirror tail, the 16 bytes a group load starting at `w < capacity` reads are
the *logical* bytes at positions `(w + l) % capacity`. -/

theorem getD_map_of_lt {α β : Type} (f : α → β) (l : List α) {i : Nat} (h : i < l.length)
    (dflt : β) (d : α) : (l.map f).getD i dflt = f (l.getD i d) := by
  rw [List.getD_eq_getElem?_getD, List.getD_eq_getElem?_getD, List.getElem?_map,
    List.getElem?_eq_getElem h]
  simp

namespace Map

variable {K V : Type} [DecidableEq K]

/-- The metadata byte at physical position `i` (0 when out of range). -/
def byteAt (m : Map K V) (i : Nat) : Nat := m.metadata.getD i 0

/-- The slot at index `i` is initialized and holds key `k`. -/
def matchKeyAt (m : Map K V) (k : K) (i : Nat) : Prop :=
  ∃ v, m.storage.getD i none = some (k, v)

instance matchKeyAt.decidable (m : Map K V) (k : K) (i : Nat) :
    Decidable (matchKeyAt m k i) :=
  match hs : m.storage.getD i none with
  | some kv =>
    if h : kv.1 = k then
      isTrue ⟨kv.2, by rw [hs, ← h]⟩
    else
      isFalse (by
        rintro ⟨v, hv⟩
        rw [hs] at hv
        exact h (congrArg (fun o => (Option.getD o (kv.1, v)).1) hv))
  | none =>
    isFalse (by
      rintro ⟨v, hv⟩
      rw [hs] at hv
      exact Option.noConfusion hv)

/-- Shape facts every positive-capacity map satisfies: the number of
buckets is a power of two between 16 and 2^64 (a `usize` quantity), the
metadata array carries the 16-byte mirror tail, and the tail mirrors the
first 16 bytes (spec invariants I1, I2, I5). -/
structure Dims (m : Map K V) : Prop where
  cap_pow : ∃ kk, 4 ≤ kk ∧ kk ≤ 64 ∧ m.n_buckets = 2 ^ kk
  mlen : m.metadata.length = m.n_buckets + GROUP_SIZE
  mirror : ∀ i, i < GROUP_SIZE → m.metadata.getD (m.n_buckets + i) 0 = m.metadata.getD i 0

theorem Dims.sixteen_le {m : Map K V} (hd : Dims m) : 16 ≤ m.n_buckets := by
  obtain ⟨kk, h4, _, hn⟩ := hd.cap_pow
  calc (16 : Nat) = 2 ^ 4 := rfl
  _ ≤ 2 ^ kk := Nat.pow_le_pow_right (by norm_num) h4
  _ = m.n_buckets := hn.symm

theorem Dims.pos {m : Map K V} (hd : Dims m) : 0 < m.n_buckets :=
  Nat.lt_of_lt_of_le (by norm_num) hd.sixteen_le

/-- `fast_rem` is reduction mod the number of buckets. -/
theorem Dims.fast_rem_eq {m : Map K V} (hd : Dims m) (x : Nat) :
    fast_rem x m.n_buckets = x % m.n_buckets := by
  obtain ⟨kk, _, _, hn⟩ := hd.cap_pow
  exact fast_rem_pow2 x hn

/-- The code's wrapped "16 back" index agrees with mathematical
`(i + n − 16) % n`. -/
theorem Dims.fast_rem_wrapping {m : Map K V} (hd : Dims m) (i : Nat) :
    fast_rem (wrappingSub64 i GROUP_SIZE) m.n_buckets = (i + (m.n_buckets - 16)) % m.n_buckets := by
  obtain ⟨kk, h4, h63, hn⟩ := hd.cap_pow
  exact fast_rem_wrappingSub i hn h4 (by omega)

/-- A group load starting at `w < n` has exactly 16 lanes. -/
theorem group_length {m : Map K V} (hd : Dims m) {w : Nat} (hw : w < m.n_buckets) :
    (sse.Group.from_slice (m.metadata.drop w)).length = 16 := by
  have hml := hd.mlen
  rw [show GROUP_SIZE = 16 from rfl] at hml
  simp only [sse.Group.from_slice, List.length_take, List.length_drop]
  omega

/-- Lane `l` of the group loaded at `w` is the logical byte at
`(w + l) % n`: within range it is the byte itself, and in the mirror tail
it is the mirrored byte. -/
theorem lane_byte {m : Map K V} (hd : Dims m) {w l : Nat} (hw : w < m.n_buckets)
    (hl : l < 16) :
    (sse.Group.from_slice (m.metadata.drop w)).getD l 0 =
      m.byteAt ((w + l) % m.n_buckets) := by
  have hlen := hd.mlen
  have h16 := hd.sixteen_le
  have hgetphys : (sse.Group.from_slice (m.metadata.drop w)).getD l 0 =
      m.metadata.getD (w + l) 0 := by
    simp only [sse.Group.from_slice, List.getD_eq_getElem?_getD,
      List.getElem?_take_of_lt hl, List.getElem?_drop]
  rw [hgetphys]
  unfold byteAt
  rcases Nat.lt_or_ge (w + l) m.n_buckets with hlt | hge
  · rw [Nat.mod_eq_of_lt hlt]
  · have hsub : (w + l) % m.n_buckets = w + l - m.n_buckets := by
      have h2n : w + l < 2 * m.n_buckets := by omega
      rw [Nat.mod_eq_sub_mod hge, Nat.mod_eq_of_lt (by omega)]
    rw [hsub]
    have := hd.mirror (w + l - m.n_buckets) (by unfold GROUP_SIZE; omega)
    rw [← this]
    congr 1
    omega

/-- Under `Dims`, every lane of a window names a bucket index `< n`. -/
theorem lane_index_lt {m : Map K V} (hd : Dims m) (w l : Nat) :
    (w + l) % m.n_buckets < m.n_buckets := Nat.mod_lt _ hd.pos

/-- `candTest` succeeds exactly on a key match, reporting the lane's bucket. -/
theorem candTest_eq {m : Map K V} (hd : Dims m) (k : K) (w l : Nat) :
    candTest m k w l =
      (if matchKeyAt m k ((w + l) % m.n_buckets) then some ((w + l) % m.n_buckets)
       else none) := by
  unfold candTest
  simp only [hd.fast_rem_eq]
  rcases hs : m.storage.getD ((w + l) % m.n_buckets) none with _ | ⟨kk, vv⟩
  · show (none : Option Nat) = _
    rw [if_neg]
    rintro ⟨v, hv⟩
    rw [hs] at hv
    exact Option.noConfusion hv
  · show (if kk = k then some ((w + l) % m.n_buckets) else none) = _
    by_cases hkk : kk = k
    · subst hkk
      rw [if_pos rfl, if_pos ⟨vv, hs⟩]
    · rw [if_neg hkk, if_neg]
      rintro ⟨v, hv⟩
      rw [hs] at hv
      exact hkk (congrArg (fun o => (Option.getD o (kk, v)).1) hv)

/-- The candidate-mask lane `l` is set exactly when the logical byte at the
lane's bucket equals `h2`. -/
theorem cand_mask_getD {m : Map K V} (hd : Dims m) (h2 : Nat) {w : Nat} (hw : w < m.n_buckets)
    {l : Nat} (hl : l < 16) :
    ((sse.Group.from_slice (m.metadata.drop w)).to_candidates h2).getD l false =
      (m.byteAt ((w + l) % m.n_buckets) == h2) := by
  unfold sse.Group.to_candidates
  rw [getD_map_of_lt _ _ (by rw [group_length hd hw]; exact hl) false 0,
    lane_byte hd hw hl]

theorem cand_mask_length {m : Map K V} (hd : Dims m) (h2 : Nat) {w : Nat} (hw : w < m.n_buckets) :
    ((sse.Group.from_slice (m.metadata.drop w)).to_candidates h2).length = 16 := by
  unfold sse.Group.to_candidates
  rw [List.length_map, group_length hd hw]

/-- Characterization of the candidate scan of fifth.rs `probe_find`:
`some j` means some lane `l` is the first lane of the group whose byte
equals `h2` and whose (initialized) slot holds key `k`, and `j` is its
bucket index. -/
theorem probeCandidates_eq_some_iff {m : Map K V} (hd : Dims m) {k : K} {h2 w j : Nat}
    (hw : w < m.n_buckets) :
    probeCandidates m k h2 w = some j ↔
      ∃ l, l < 16 ∧ m.byteAt ((w + l) % m.n_buckets) = h2 ∧ j = (w + l) % m.n_buckets ∧
        matchKeyAt m k j ∧
        ∀ l', l' < l → m.byteAt ((w + l') % m.n_buckets) = h2 →
          ¬ matchKeyAt m k ((w + l') % m.n_buckets) := by
  unfold probeCandidates
  rw [sse.maskFwd, findSome?_maskFwdAux, laneScan_eq_some_iff]
  constructor
  · rintro ⟨l, hl, hset, hf, hmin⟩
    rw [cand_mask_length hd h2 hw] at hl
    rw [cand_mask_getD hd h2 hw hl] at hset
    rw [Nat.zero_add, candTest_eq hd] at hf
    split at hf
    · rename_i hm
      have hj : j = (w + l) % m.n_buckets := (Option.some.injEq _ _).mp hf.symm
      refine ⟨l, hl, by simpa using hset, hj, hj ▸ hm, ?_⟩
      intro l' hl' hb' hm'
      have := hmin l' hl' (by rw [cand_mask_getD hd h2 hw (by omega)]; simpa using hb')
      rw [Nat.zero_add, candTest_eq hd, if_pos hm'] at this
      exact Option.noConfusion this
    · exact Option.noConfusion hf
  · rintro ⟨l, hl, hb, hj, hm, hmin⟩
    refine ⟨l, by rw [cand_mask_length hd h2 hw]; exact hl,
      by rw [cand_mask_getD hd h2 hw hl]; simpa using hb, ?_, ?_⟩
    · rw [Nat.zero_add, candTest_eq hd, if_pos (hj ▸ hm), hj]
    · intro l' hl' hset'
      rw [cand_mask_getD hd h2 hw (by omega)] at hset'
      rw [Nat.zero_add, candTest_eq hd]
      rw [if_neg (hmin l' hl' (by simpa using hset'))]

/-- The candidate scan fails exactly when no lane both carries `h2` and
holds key `k`. -/
theorem probeCandidates_eq_none_iff {m : Map K V} (hd : Dims m) {k : K} {h2 w : Nat}
    (hw : w < m.n_buckets) :
    probeCandidates m k h2 w = none ↔
      ∀ l, l < 16 → m.byteAt ((w + l) % m.n_buckets) = h2 →
        ¬ matchKeyAt m k ((w + l) % m.n_buckets) := by
  unfold probeCandidates
  rw [sse.maskFwd, findSome?_maskFwdAux, laneScan_eq_none_iff]
  constructor
  · intro h l hl hb hm
    have := h l (by rw [cand_mask_length hd h2 hw]; exact hl)
      (by rw [cand_mask_getD hd h2 hw hl]; simpa using hb)
    rw [Nat.zero_add, candTest_eq hd, if_pos hm] at this
    exact Option.noConfusion this
  · intro h l hl hset
    rw [cand_mask_length hd h2 hw] at hl
    rw [cand_mask_getD hd h2 hw hl] at hset
    rw [Nat.zero_add, candTest_eq hd]
    exact if_neg (h l hl (by simpa using hset))

/-- The first-empty scan of a group: `some e` means lane `e` is the first
lane holding the EMPTY byte. -/
theorem group_first_empty_eq_some_iff {m : Map K V} (hd : Dims m) {w e : Nat}
    (hw : w < m.n_buckets) :
    sse.find_first ((sse.Group.from_slice (m.metadata.drop w)).to_empties) = some e ↔
      e < 16 ∧ m.byteAt ((w + e) % m.n_buckets) = metadata.EMPTY ∧
        ∀ l, l < e → m.byteAt ((w + l) % m.n_buckets) ≠ metadata.EMPTY := by
  unfold sse.find_first
  rw [find_firstAux_eq_some_iff]
  have hmask : ∀ l, l < 16 →
      ((sse.Group.from_slice (m.metadata.drop w)).to_empties).getD l false =
        (m.byteAt ((w + l) % m.n_buckets) == metadata.EMPTY) := by
    intro l hl
    unfold sse.Group.to_empties
    rw [getD_map_of_lt _ _ (by rw [group_length hd hw]; exact hl) false 0,
      lane_byte hd hw hl]
  have hlen : ((sse.Group.from_slice (m.metadata.drop w)).to_empties).length = 16 := by
    unfold sse.Group.to_empties
    rw [List.length_map, group_length hd hw]
  constructor
  · rintro ⟨l, hl, he, hset, hmin⟩
    rw [hlen] at hl
    rw [hmask l hl] at hset
    refine ⟨by omega, ?_, ?_⟩
    · obtain rfl : e = l := by omega
      simpa using hset
    · intro l' hl' hne
      obtain rfl : e = l := by omega
      have := hmin l' hl'
      rw [hmask l' (by omega)] at this
      simp only [beq_eq_false_iff_ne, ne_eq] at this
      exact this hne
  · rintro ⟨he, hb, hmin⟩
    refine ⟨e, by rw [hlen]; exact he, by omega, by rw [hmask e he]; simpa using hb, ?_⟩
    intro l' hl'
    rw [hmask l' (by omega)]
    simpa using hmin l' hl'

/-- The first-empty scan fails exactly when no lane of the group is EMPTY. -/
theorem group_first_empty_eq_none_iff {m : Map K V} (hd : Dims m) {w : Nat}
    (hw : w < m.n_buckets) :
    sse.find_first ((sse.Group.from_slice (m.metadata.drop w)).to_empties) = none ↔
      ∀ l, l < 16 → m.byteAt ((w + l) % m.n_buckets) ≠ metadata.EMPTY := by

  unfold sse.find_first
  rw [find_firstAux_eq_none_iff]
  have hmask : ∀ l, l < 16 →
      ((sse.Group.from_slice (m.metadata.drop w)).to_empties).getD l false =
        (m.byteAt ((w + l) % m.n_buckets) == metadata.EMPTY) := by
    intro l hl
    unfold sse.Group.to_empties
    rw [getD_map_of_lt _ _ (by rw [group_length hd hw]; exact hl) false 0,
      lane_byte hd hw hl]
  have hlen : ((sse.Group.from_slice (m.metadata.drop w)).to_empties).length = 16 := by
    unfold sse.Group.to_empties
    rw [List.length_map, group_length hd hw]
  constructor
  · intro h l hl
    have := h l (by rw [hlen]; exact hl)
    rw [hmask l hl] at this
    simpa using this
  · intro h l hl
    rw [hlen] at hl
    rw [hmask l hl]
    simpa using h l hl

/-! ## Step results and the probe walk -/

/-- `stepResult` is `Full j` exactly when the candidate scan matched at `j`. -/
theorem stepResult_eq_full_iff {m : Map K V} {k : K} {h2 w j : Nat} :
    stepResult m k h2 w = some (.Full j) ↔ probeCandidates m k h2 w = some j := by
  unfold stepResult
  rcases hc : probeCandidates m k h2 w with _ | idx
  · rcases he : sse.find_first ((sse.Group.from_slice (m.metadata.drop w)).to_empties)
      with _ | e <;> simp
  · simp

/-- `stepResult` is `Empty` exactly when the candidate scan failed and the
group had an empty lane; the returned index is the first empty lane's
bucket, and the returned tag is the probe's `h2`. -/
theorem stepResult_eq_empty_iff {m : Map K V} {k : K} {h2 w idx h2' : Nat} :
    stepResult m k h2 w = some (.Empty idx h2') ↔
      probeCandidates m k h2 w = none ∧ h2' = h2 ∧
        ∃ e, sse.find_first ((sse.Group.from_slice (m.metadata.drop w)).to_empties) = some e ∧
          idx = fast_rem (w + e) m.n_buckets := by
  unfold stepResult
  rcases hc : probeCandidates m k h2 w with _ | j
  · rcases he : sse.find_first ((sse.Group.from_slice (m.metadata.drop w)).to_empties)
      with _ | e
    · simp
    · simp only [Option.some.injEq, ProbeResult.Empty.injEq, true_and]
      constructor
      · rintro ⟨h1, h2eq⟩
        exact ⟨h2eq.symm, e, rfl, h1.symm⟩
      · rintro ⟨h2eq, e', he', hidx⟩
        obtain rfl : e = e' := he'
        exact ⟨hidx.symm, h2eq.symm⟩
  · simp

/-- `stepResult` is `none` exactly when the group has neither a key match
nor an empty lane. -/
theorem stepResult_eq_none_iff {m : Map K V} {k : K} {h2 w : Nat} :
    stepResult m k h2 w = none ↔
      probeCandidates m k h2 w = none ∧
        sse.find_first ((sse.Group.from_slice (m.metadata.drop w)).to_empties) = none := by
  unfold stepResult
  rcases hc : probeCandidates m k h2 w with _ | j
  · rcases he : sse.find_first ((sse.Group.from_slice (m.metadata.drop w)).to_empties)
      with _ | e <;> simp
  · simp

/-- Triangular numbers: the accumulated probe offset after `s` steps. -/
def T (s : Nat) : Nat := s * (s + 1) / 2

theorem T_succ (s : Nat) : T (s + 1) = T s + (s + 1) := by
  unfold T
  have h2 : 2 ∣ s * (s + 1) := (Nat.even_mul_succ_self s).two_dvd
  have e : (s + 1) * (s + 1 + 1) = s * (s + 1) + 2 * (s + 1) := by ring
  rw [e]
  obtain ⟨c, hc⟩ := h2
  rw [hc]
  omega

/-- The start of the `s`-th group window probed for home index `home`. -/
def windowStart (home n s : Nat) : Nat := (home + 16 * T s) % n

/-- The outer loop of `probe_find`, unrolled: probing the steps
`s, s+1, …, s+cnt−1` from the correctly accumulated `current` visits the
windows `windowStart home n s, …` in order, returning the first
non-`none` step result. -/
theorem probeGo_eq_findSome? {m : Map K V} (hd : Dims m) (k : K) (h2 home : Nat) :
    ∀ (cnt s c : Nat), (c + s * 16) % m.n_buckets = windowStart home m.n_buckets s →
      probeGo m k h2 (List.range' s cnt) c =
        (List.range' s cnt).findSome?
          (fun j => stepResult m k h2 (windowStart home m.n_buckets j)) := by
  intro cnt
  induction cnt with
  | zero => intro s c _; rfl
  | succ cnt ih =>
    intro s c hc
    rw [List.range'_succ, probeGo, List.findSome?_cons]
    have hcur : fast_rem (c + s * GROUP_SIZE) m.n_buckets = windowStart home m.n_buckets s := by
      rw [hd.fast_rem_eq, show GROUP_SIZE = 16 from rfl, hc]
    rw [hcur]
    rcases hs : stepResult m k h2 (windowStart home m.n_buckets s) with _ | r
    · have hnext : (windowStart home m.n_buckets s + (s + 1) * 16) % m.n_buckets =
          windowStart home m.n_buckets (s + 1) := by
        unfold windowStart
        rw [Nat.mod_add_mod]
        congr 1
        rw [T_succ]
        ring
      exact ih (s + 1) _ hnext
    · rfl

/-- The home bucket of a key. -/
def homeOf (m : Map K V) (k : K) : Nat := (m.bucket_index_and_h2 k).1

/-- The `h2` tag of a key. -/
def h2Of (m : Map K V) (k : K) : Nat := (m.bucket_index_and_h2 k).2

theorem homeOf_lt {m : Map K V} (hd : Dims m) (k : K) : homeOf m k < m.n_buckets := by
  unfold homeOf bucket_index_and_h2
  obtain ⟨kk, _, _, hn⟩ := hd.cap_pow
  exact fast_rem_lt _ hn hd.pos

theorem h2Of_lt_128 (m : Map K V) (k : K) : h2Of m k < 128 := by
  have hb : make_hash m.hasher k &&& 0x7F ≤ 0x7F := Nat.and_le_right
  have he : h2Of m k = make_hash m.hasher k &&& 0x7F := rfl
  omega

/-- `probe_find` is the scan of the triangular window sequence for the
key's home bucket, taking the first window that yields a result. -/
theorem probe_find_eq_findSome? {m : Map K V} (hd : Dims m) (k : K) :
    m.probe_find k =
      (List.range m.n_buckets).findSome?
        (fun j => stepResult m k (h2Of m k) (windowStart (homeOf m k) m.n_buckets j)) := by
  unfold probe_find
  rw [List.range_eq_range']
  exact probeGo_eq_findSome? hd k _ (homeOf m k) m.n_buckets 0 (homeOf m k)
    (by simp [windowStart, T])

/-- Transfer of a `findSome?` scan from one function to another that fails
wherever the first fails and agrees on the first's chosen result. -/
theorem findSome?_rel {α β : Type} {l : List α} {f g : α → Option β} {r r' : β}
    (hnone : ∀ a ∈ l, f a = none → g a = none)
    (hsome : ∀ a ∈ l, f a = some r → g a = some r') :
    l.findSome? f = some r → l.findSome? g = some r' := by
  induction l with
  | nil => intro h; exact Option.noConfusion h
  | cons a l ih =>
    intro h
    rw [List.findSome?_cons] at h ⊢
    rcases hf : f a with _ | x
    · rw [hf] at h
      rw [hnone a (by simp) hf]
      exact ih (fun b hb => hnone b (by simp [hb]) ) (fun b hb => hsome b (by simp [hb])) h
    · rw [hf] at h
      obtain rfl : x = r := Option.some.injEq _ _ ▸ h
      rw [hsome a (by simp) hf]

end Map

/-! ## The triangular stride visits every group

On a power-of-two number of groups, the triangular offsets `T 0, T 1, …`
are a permutation modulo the group count, so the windows
`windowStart home n 0, …, windowStart home n (n/16 − 1)` tile the whole
bucket range. -/

theorem two_mul_T (s : Nat) : 2 * Map.T s = s * (s + 1) := by
  unfold Map.T
  exact Nat.mul_div_cancel' (Nat.even_mul_succ_self s).two_dvd

theorem T_mod_inj_aux {mm a b : Nat} (ha : a < 2 ^ mm) (hba : b ≤ a)
    (h : Map.T a % 2 ^ mm = Map.T b % 2 ^ mm) : a = b := by
  have hmod : Map.T b ≡ Map.T a [MOD 2 ^ mm] := h.symm
  have hmod2 : 2 * Map.T b ≡ 2 * Map.T a [MOD 2 * 2 ^ mm] := Nat.ModEq.mul_left' 2 hmod
  rw [two_mul_T, two_mul_T] at hmod2
  have hz : ((2 * 2 ^ mm : Nat) : Int) ∣ ((a * (a + 1) : Nat) : Int) -
      ((b * (b + 1) : Nat) : Int) := hmod2.dvd
  have hcast : ((a * (a + 1) : Nat) : Int) - ((b * (b + 1) : Nat) : Int) =
      (((a - b) * (a + b + 1) : Nat) : Int) := by
    push_cast [Nat.cast_sub hba]
    ring
  rw [hcast] at hz
  have hdvd : (2 * 2 ^ mm : Nat) ∣ (a - b) * (a + b + 1) := Int.natCast_dvd_natCast.mp hz
  have hdvd' : (2 : Nat) ^ (mm + 1) ∣ (a - b) * (a + b + 1) := by
    rw [pow_succ']
    exact hdvd
  have hpow : (2 : Nat) ^ (mm + 1) = 2 * 2 ^ mm := pow_succ' 2 mm
  rcases Nat.even_or_odd (a - b) with hev | hodd
  · -- `a − b` even, hence `a + b + 1` odd: the power of two divides `a − b`
    have hnotdvd : ¬ (2 ∣ (a + b + 1)) := by
      rcases hev with ⟨c, hc⟩
      omega
    have hco : Nat.Coprime (2 ^ (mm + 1)) (a + b + 1) :=
      Nat.Coprime.pow_left _ ((Nat.prime_two.coprime_iff_not_dvd).mpr hnotdvd)
    have hd : (2 : Nat) ^ (mm + 1) ∣ (a - b) := hco.dvd_of_dvd_mul_right hdvd'
    rcases Nat.eq_zero_or_pos (a - b) with h0 | hpos
    · omega
    · have := Nat.le_of_dvd hpos hd
      omega
  · -- `a − b` odd, hence coprime to 2: the power of two divides `a + b + 1`
    have hnotdvd : ¬ (2 ∣ (a - b)) := by
      rcases hodd with ⟨c, hc⟩
      omega
    have hco : Nat.Coprime (2 ^ (mm + 1)) (a - b) :=
      Nat.Coprime.pow_left _ ((Nat.prime_two.coprime_iff_not_dvd).mpr hnotdvd)
    have hd : (2 : Nat) ^ (mm + 1) ∣ (a + b + 1) := hco.dvd_of_dvd_mul_left hdvd'
    have := Nat.le_of_dvd (by omega) hd
    omega

theorem T_mod_inj {mm a b : Nat} (ha : a < 2 ^ mm) (hb : b < 2 ^ mm)
    (h : Map.T a % 2 ^ mm = Map.T b % 2 ^ mm) : a = b := by
  rcases Nat.le_total b a with hba | hab
  · exact T_mod_inj_aux ha hba h
  · exact (T_mod_inj_aux hb hab h.symm).symm

theorem T_mod_surj (mm q : Nat) (hq : q < 2 ^ mm) :
    ∃ s, s < 2 ^ mm ∧ Map.T s % 2 ^ mm = q := by
  have hpos : 0 < 2 ^ mm := Nat.two_pow_pos mm
  have hinj : Function.Injective
      (fun s : Fin (2 ^ mm) => (⟨Map.T s.1 % 2 ^ mm, Nat.mod_lt _ hpos⟩ : Fin (2 ^ mm))) := by
    intro x y hxy
    exact Fin.ext (T_mod_inj x.2 y.2 (congrArg Fin.val hxy))
  have hsurj := Finite.injective_iff_surjective.mp hinj
  obtain ⟨s, hs⟩ := hsurj ⟨q, hq⟩
  exact ⟨s.1, s.2, congrArg Fin.val hs⟩

/-- Tiling: every bucket index `t` lies in one of the first `n / 16`
triangular probe windows. -/
theorem window_cover {n kk : Nat} (hn : n = 2 ^ kk) (h4 : 4 ≤ kk) {home t : Nat}
    (hhome : home < n) (ht : t < n) :
    ∃ s, s < n / 16 ∧ ∃ l, l < 16 ∧ (Map.windowStart home n s + l) % n = t := by
  have hg : n = 16 * 2 ^ (kk - 4) := by
    rw [hn, show (16 : Nat) = 2 ^ 4 from rfl, ← pow_add]
    congr 1
    omega
  have hgdiv : n / 16 = 2 ^ (kk - 4) := by
    rw [hg]
    exact Nat.mul_div_cancel_left _ (by norm_num)
  have hnpos : 0 < n := by rw [hn]; exact Nat.two_pow_pos kk
  set d := (t + (n - home)) % n with hd
  have hdlt : d < n := Nat.mod_lt _ hnpos
  have hqlt : d / 16 < 2 ^ (kk - 4) := by
    rw [Nat.div_lt_iff_lt_mul (by norm_num : (0:Nat) < 16)]
    calc d < n := hdlt
    _ = 2 ^ (kk - 4) * 16 := by rw [hg]; ring
  obtain ⟨st, hst, hTs⟩ := T_mod_surj (kk - 4) (d / 16) hqlt
  refine ⟨st, by rw [hgdiv]; exact hst, d % 16, Nat.mod_lt _ (by norm_num), ?_⟩
  have hmodeq : Map.windowStart home n st + d % 16 ≡ t [MOD n] := by
    have s1 : Map.windowStart home n st + d % 16 ≡ home + 16 * Map.T st + d % 16 [MOD n] :=
      Nat.ModEq.add_right _ (Nat.mod_modEq _ n)
    have s2 : 16 * Map.T st ≡ 16 * (d / 16) [MOD n] := by
      rw [hg]
      exact Nat.ModEq.mul_left' 16 (by
        have : Map.T st ≡ d / 16 [MOD 2 ^ (kk - 4)] := by
          unfold Nat.ModEq
          rw [hTs, Nat.mod_eq_of_lt hqlt]
        exact this)
    have s3 : home + 16 * Map.T st + d % 16 ≡ home + 16 * (d / 16) + d % 16 [MOD n] :=
      Nat.ModEq.add_right _ (Nat.ModEq.add_left _ s2)
    have s4 : home + 16 * (d / 16) + d % 16 = home + d := by
      have := Nat.div_add_mod d 16
      omega
    have s5 : home + d ≡ home + (t + (n - home)) [MOD n] :=
      Nat.ModEq.add_left _ (Nat.mod_modEq _ n)
    have s6 : home + (t + (n - home)) = t + n := by omega
    have s7 : t + n ≡ t [MOD n] := by
      unfold Nat.ModEq
      exact Nat.add_mod_right t n
    exact ((s1.trans s3).trans (s4 ▸ (s5.trans (s6 ▸ s7))))
  have := hmodeq
  unfold Nat.ModEq at this
  rw [Nat.mod_eq_of_lt ht] at this
  exact this

/-- `from_h2` is the identity on 7-bit values. -/
theorem from_h2_of_lt {x : Nat} (h : x < 128) : metadata.from_h2 x = x := by
  unfold metadata.from_h2 metadata.MASK
  have he : x &&& 127 = x % 128 := Nat.and_pow_two_sub_one_eq_mod x 7
  rw [show (0x7F : Nat) = 127 from rfl, he, Nat.mod_eq_of_lt h]

namespace Map

variable {K V : Type} [DecidableEq K]

theorem windowStart_lt {home n : Nat} (hn : 0 < n) (s : Nat) : windowStart home n s < n :=
  Nat.mod_lt _ hn

/-- If a list contains an element on which `f` fires, `findSome?` fires. -/
theorem findSome?_isSome_of_mem {α β : Type} {l : List α} {f : α → Option β} {a : α}
    (ha : a ∈ l) (hf : f a ≠ none) : (l.findSome? f).isSome = true := by
  rcases ho : l.findSome? f with _ | r
  · rw [List.findSome?_eq_none_iff] at ho
    exact absurd (ho a ha) hf
  · rfl

/-- Splitting a probe over the full fuel `range n` at the group count:
if the first `n / 16` steps already produce a result, the full probe
returns exactly that result. -/
theorem findSome?_range_split {β : Type} (f : Nat → Option β) {g n : Nat} (hg : g ≤ n) :
    (List.range n).findSome? f = ((List.range g).findSome? f).or
      ((List.range' g (n - g)).findSome? f) := by
  have happ := List.range'_append_1 0 g (n - g)
  rw [Nat.zero_add] at happ
  have hsum : n - g + g = n := by omega
  rw [hsum] at happ
  rw [List.range_eq_range' n, ← happ, List.findSome?_append, List.range_eq_range' g]

/-- Core of claim C4: in a well-formed table that has an empty byte or
holds the probed key (with its `h2` tag in the metadata), the triangular
probe finds a result within the first `capacity / 16` windows. -/
theorem probe_hits_within_group_count {m : Map K V} (hd : Dims m) (k : K)
    (hyp : (∃ i, i < m.n_buckets ∧ m.byteAt i = metadata.EMPTY) ∨
           (∃ i, i < m.n_buckets ∧ m.byteAt i = metadata.from_h2 (h2Of m k) ∧
             matchKeyAt m k i)) :
    (((List.range (m.n_buckets / 16)).findSome?
        (fun j => stepResult m k (h2Of m k)
          (windowStart (homeOf m k) m.n_buckets j))).isSome = true) ∧
      m.probe_find k = (List.range (m.n_buckets / 16)).findSome?
        (fun j => stepResult m k (h2Of m k) (windowStart (homeOf m k) m.n_buckets j)) := by
  obtain ⟨kk, h4, h63, hn⟩ := hd.cap_pow
  -- the target byte that forces a result
  have key : ∃ t, t < m.n_buckets ∧
      (m.byteAt t = metadata.EMPTY ∨
        (m.byteAt t = metadata.from_h2 (h2Of m k) ∧ matchKeyAt m k t)) := by
    rcases hyp with ⟨i, hi, hb⟩ | ⟨i, hi, hb, hm⟩
    · exact ⟨i, hi, Or.inl hb⟩
    · exact ⟨i, hi, Or.inr ⟨hb, hm⟩⟩
  obtain ⟨t, ht, hP⟩ := key
  obtain ⟨st, hst, l, hl, hcov⟩ := window_cover hn h4 (homeOf_lt hd k) ht
  have hwlt : windowStart (homeOf m k) m.n_buckets st < m.n_buckets :=
    windowStart_lt hd.pos st
  have hstep : stepResult m k (h2Of m k) (windowStart (homeOf m k) m.n_buckets st) ≠ none := by
    intro hnone
    rw [stepResult_eq_none_iff] at hnone
    obtain ⟨hcand, hemp⟩ := hnone
    rcases hP with hb | ⟨hb, hm⟩
    · rw [group_first_empty_eq_none_iff hd hwlt] at hemp
      exact hemp l hl (by rw [hcov]; exact hb)
    · rw [probeCandidates_eq_none_iff hd hwlt] at hcand
      have hb' : m.byteAt ((windowStart (homeOf m k) m.n_buckets st + l) % m.n_buckets) =
          h2Of m k := by
        rw [hcov, hb, from_h2_of_lt (h2Of_lt_128 m k)]
      exact hcand l hl hb' (by rw [hcov]; exact hm)
  have hsome : ((List.range (m.n_buckets / 16)).findSome?
      (fun j => stepResult m k (h2Of m k)
        (windowStart (homeOf m k) m.n_buckets j))).isSome = true :=
    findSome?_isSome_of_mem (List.mem_range.mpr hst) hstep
  refine ⟨hsome, ?_⟩
  rw [probe_find_eq_findSome? hd k,
    findSome?_range_split _ (Nat.div_le_self m.n_buckets 16)]
  rcases ho : (List.range (m.n_buckets / 16)).findSome?
      (fun j => stepResult m k (h2Of m k) (windowStart (homeOf m k) m.n_buckets j))
    with _ | r
  · rw [ho] at hsome
    simp at hsome
  · rfl

end Map

/-! ## Unfolding chunked iteration -/

namespace Map

theorem chunksExact16Go_congr {α : Type} :
    ∀ (fuel1 fuel2 : Nat) (l : List α), l.length ≤ fuel1 → l.length ≤ fuel2 →
      chunksExact16Go fuel1 l = chunksExact16Go fuel2 l := by
  intro fuel1
  induction fuel1 with
  | zero =>
    intro fuel2 l h1 h2
    have hl : l.length = 0 := Nat.le_zero.mp h1
    cases fuel2 with
    | zero => rfl
    | succ f2 =>
      rw [chunksExact16Go, chunksExact16Go, if_pos (by omega)]
  | succ f1 ih =>
    intro fuel2 l h1 h2
    cases fuel2 with
    | zero =>
      have hl : l.length = 0 := Nat.le_zero.mp h2
      rw [chunksExact16Go, chunksExact16Go, if_pos (by omega)]
    | succ f2 =>
      rw [chunksExact16Go, chunksExact16Go]
      by_cases hlen : l.length < 16
      · rw [if_pos hlen, if_pos hlen]
      · rw [if_neg hlen, if_neg hlen]
        have hd : (l.drop 16).length ≤ f1 := by
          rw [List.length_drop]
          omega
        have hd2 : (l.drop 16).length ≤ f2 := by
          rw [List.length_drop]
          omega
        rw [ih f2 (l.drop 16) hd hd2]

theorem chunksExact16_unfold {α : Type} (l : List α) :
    chunksExact16 l =
      if l.length < 16 then [] else l.take 16 :: chunksExact16 (l.drop 16) := by
  unfold chunksExact16
  by_cases hlen : l.length < 16
  · rw [if_pos hlen]
    cases hl : l.length with
    | zero => rfl
    | succ f =>
      rw [chunksExact16Go, if_pos (by omega)]
  · rw [if_neg hlen]
    cases hl : l.length with
    | zero => omega
    | succ f =>
      rw [chunksExact16Go, if_neg (by omega)]
      congr 1
      exact chunksExact16Go_congr f (l.drop 16).length (l.drop 16)
        (by rw [List.length_drop]; omega) (Nat.le_refl _)

end Map

/-! ## set_metadata semantics -/

theorem getD_set_eq {α : Type} {l : List α} {i : Nat} (hi : i < l.length) (a d : α) :
    (l.set i a).getD i d = a := by
  rw [List.getD_eq_getElem?_getD, List.getElem?_set_self hi]
  rfl

theorem getD_set_ne {α : Type} {l : List α} {i j : Nat} (h : i ≠ j) (a d : α) :
    (l.set i a).getD j d = l.getD j d := by
  rw [List.getD_eq_getElem?_getD, List.getElem?_set_ne h, ← List.getD_eq_getElem?_getD]

namespace Map

variable {K V : Type} [DecidableEq K]

/-- The two physical positions fifth.rs `set_metadata` writes, in
mathematical form: `i mod n` and `((i − 16) mod n) + 16`. -/
theorem set_metadata_metadata {m : Map K V} (hd : Dims m) (i val : Nat) :
    (m.set_metadata i val).metadata =
      (m.metadata.set (i % m.n_buckets) val).set
        ((i % m.n_buckets + (m.n_buckets - 16)) % m.n_buckets + 16) val := by
  simp only [set_metadata]
  rw [hd.fast_rem_wrapping, hd.fast_rem_eq]
  rfl

theorem set_metadata_storage (m : Map K V) (i val : Nat) :
    (m.set_metadata i val).storage = m.storage := rfl

theorem set_metadata_n_buckets (m : Map K V) (i val : Nat) :
    (m.set_metadata i val).n_buckets = m.n_buckets := rfl

theorem set_metadata_counters (m : Map K V) (i val : Nat) :
    (m.set_metadata i val).n_items = m.n_items ∧
      (m.set_metadata i val).n_occupied = m.n_occupied ∧
      (m.set_metadata i val).hasher = m.hasher := ⟨rfl, rfl, rfl⟩

theorem set_metadata_mlen {m : Map K V} (hd : Dims m) (i val : Nat) :
    (m.set_metadata i val).metadata.length = m.metadata.length := by
  rw [set_metadata_metadata hd, List.length_set, List.length_set]

/-- The logical effect of `set_metadata i val` on in-range bytes: position
`i` gets `val`, every other position `< n` is untouched. -/
theorem byteAt_set_metadata {m : Map K V} (hd : Dims m) {i : Nat} (hi : i < m.n_buckets)
    (val : Nat) {j : Nat} (hj : j < m.n_buckets) :
    (m.set_metadata i val).byteAt j = if j = i then val else m.byteAt j := by
  have h16 := hd.sixteen_le
  have hml := hd.mlen
  have hG : GROUP_SIZE = 16 := rfl
  unfold byteAt
  rw [set_metadata_metadata hd, Nat.mod_eq_of_lt hi]
  have hp1len : i < m.metadata.length := by omega
  rcases Nat.lt_or_ge i 16 with hi16 | hi16
  · -- mirror write lands at `n + i`, outside `[0, n)`
    have hp2 : (i + (m.n_buckets - 16)) % m.n_buckets + 16 = m.n_buckets + i := by
      have hlt : i + (m.n_buckets - 16) < m.n_buckets := by omega
      rw [Nat.mod_eq_of_lt hlt]
      omega
    rw [hp2]
    by_cases hji : j = i
    · subst hji
      rw [if_pos rfl, getD_set_ne (by omega), getD_set_eq hp1len]
    · rw [if_neg hji, getD_set_ne (by omega), getD_set_ne (fun h => hji h.symm)]
  · -- both writes land at position `i`
    have hp2 : (i + (m.n_buckets - 16)) % m.n_buckets + 16 = i := by
      have hsum : i + (m.n_buckets - 16) = (i - 16) + m.n_buckets := by omega
      rw [hsum, Nat.add_mod_right, Nat.mod_eq_of_lt (by omega)]
      omega
    rw [hp2]
    by_cases hji : j = i
    · subst hji
      rw [if_pos rfl, getD_set_eq (by rw [List.length_set]; omega)]
    · rw [if_neg hji, getD_set_ne (fun h => hji h.symm), getD_set_ne (fun h => hji h.symm)]

/-- `set_metadata` at an in-range index preserves the dimension facts,
in particular the mirror invariant I2. -/
theorem Dims.set_metadata_preserved {m : Map K V} (hd : Dims m) {i : Nat}
    (hi : i < m.n_buckets) (val : Nat) : Dims (m.set_metadata i val) := by
  have h16 := hd.sixteen_le
  have hml := hd.mlen
  have hG : GROUP_SIZE = 16 := rfl
  refine ⟨by rw [set_metadata_n_buckets]; exact hd.cap_pow, ?_, ?_⟩
  · rw [set_metadata_mlen hd, set_metadata_n_buckets]
    exact hd.mlen
  · intro j hj
    rw [set_metadata_n_buckets, set_metadata_metadata hd, Nat.mod_eq_of_lt hi]
    rw [hG] at hj
    rcases Nat.lt_or_ge i 16 with hi16 | hi16
    · have hp2 : (i + (m.n_buckets - 16)) % m.n_buckets + 16 = m.n_buckets + i := by
        have hlt : i + (m.n_buckets - 16) < m.n_buckets := by omega
        rw [Nat.mod_eq_of_lt hlt]
        omega
      rw [hp2]
      by_cases hji : j = i
      · subst hji
        rw [getD_set_eq (by rw [List.length_set]; omega),
          getD_set_ne (by omega), getD_set_eq (by omega)]
      · rw [getD_set_ne (by omega : m.n_buckets + i ≠ m.n_buckets + j),
          getD_set_ne (by omega : i ≠ m.n_buckets + j),
          getD_set_ne (by omega : m.n_buckets + i ≠ j),
          getD_set_ne (fun h => hji h.symm)]
        exact hd.mirror j (by omega)
    · have hp2 : (i + (m.n_buckets - 16)) % m.n_buckets + 16 = i := by
        have hsum : i + (m.n_buckets - 16) = (i - 16) + m.n_buckets := by omega
        rw [hsum, Nat.add_mod_right, Nat.mod_eq_of_lt (by omega)]
        omega
      rw [hp2]
      rw [getD_set_ne (by omega : i ≠ m.n_buckets + j),
        getD_set_ne (by omega : i ≠ m.n_buckets + j),
        getD_set_ne (by omega : i ≠ j), getD_set_ne (by omega : i ≠ j)]
      exact hd.mirror j (by omega)

end Map

/-! ## third.rs / second.rs / lib.rs capacity policy -/

/-- `third.rs` `with_capacity` (lines 85-94; the identical computation
appears in `second.rs` lines 57-62 and `lib.rs` lines 84-89): the length of
the `storage` and `metadata` arrays the constructor allocates, computed as
`match capacity { 0 => 0, x if x < 16 => 16, y => 1 << (y.ilog2() + 1) }`. -/
def thirdWithCapacityCapacity (capacity : Nat) : Nat :=
  if capacity = 0 then 0
  else if capacity < 16 then 16
  else 2 ^ (Nat.log2 capacity + 1)

/-! ## Mutation-order traces for the `Empty` branch of `_insert` -/

/-- A single traced mutation of a map's backing arrays. -/
inductive WriteEvent (K V : Type) where
  | setMeta (index : Nat) (value : metadata.Metadata)
  | writeStorage (index : Nat) (pair : K × V)
deriving DecidableEq

/-- The mutation sequence of the `ProbeResult::Empty(index, h2)` branch of
fifth.rs `_insert` (lines 194-199), in source order: the source calls
`self.set_metadata(index, metadata::from_h2(h2))` FIRST and only then
`self.storage[index].write((k, v))`.  (sixth.rs `_insert`, lines 252-271,
performs the same two writes in the same order, lines 256-257.) -/
def insertEmptyBranchTrace {K V : Type} (index h2 : Nat) (k : K) (v : V) :
    List (WriteEvent K V) :=
  [WriteEvent.setMeta index (metadata.from_h2 h2), WriteEvent.writeStorage index (k, v)]

/-- The ordering §4.5.3 of the spec prescribes for the same branch, stated
from the spec's words for comparison: "Write the `(k, v)` pair into
`storage[idx]`.  Only after the write succeeds, call
`set_metadata(idx, from_h2(h2))`." -/
def specInsertEmptyBranchTrace {K V : Type} (index h2 : Nat) (k : K) (v : V) :
    List (WriteEvent K V) :=
  [WriteEvent.writeStorage index (k, v), WriteEvent.setMeta index (metadata.from_h2 h2)]

namespace Map

variable {K V : Type} [DecidableEq K]

/-- Replaying one traced mutation against a map (counters unchanged). -/
def applyWrite (m : Map K V) : WriteEvent K V → Map K V
  | WriteEvent.setMeta i val => m.set_metadata i val
  | WriteEvent.writeStorage i p => { m with storage := m.storage.set i (some p) }

/-- `decide_tombstone_or_empty` reads only the metadata array and the
bucket count. -/
theorem decide_tombstone_or_empty_congr (m1 m2 : Map K V)
    (hmd : m1.metadata = m2.metadata) (hn : m1.n_buckets = m2.n_buckets) (idx : Nat) :
    m1.decide_tombstone_or_empty idx = m2.decide_tombstone_or_empty idx := by
  unfold decide_tombstone_or_empty
  rw [hmd, hn]

end Map

/-! ## Concrete executions -/

/-- The identity hash builder (a legitimate deterministic `BuildHasher`),
used for the concrete executions below. -/
def idHasher : Nat → Nat := fun k => k

/-- Insert the pairs `(0,0) … (n−1,n−1)` into `Map::new()` in order,
propagating the panic layer (`none` = some insert panicked). -/
def insertRange (n : Nat) : Option (Map Nat Nat) :=
  (List.range n).foldlM (fun m i => (m.insert i i).map Prod.fst) (Map.new idHasher)

/-! ## Claims -/

/-- **C1.** The claim states that after inserting any `n` distinct keys into
`new()`, `get(kᵢ)` returns `vᵢ` for every `i`, `len()` returns `n`, and `get`
of a key not among them returns absent.  The code violates the claim: with
the identity hash builder, inserting the sixteen distinct pairs
`(0,0) … (15,15)` leaves a full table (`needs_resize` uses the integer
division `(n_occupied * 8) / n_buckets > 7`, which only triggers at
`n_occupied ≥ n_buckets`), so the subsequent `get(&16)` exhausts the probe
loop and hits `unreachable!("backing storage is full, we didn't resize
correctly")` instead of returning `None`.  This theorem evaluates the
embedded code at that failing input: `len` and `get` of present keys behave
as claimed, but `get 16` yields `none`, the embedding's panic marker. -/
theorem c1_insert16_get_missing_panics :
    (insertRange 16).map (fun m => (m.len, m.get 7, m.get 16)) =
      some (16, some (some 7), none) := by
  rfl

/-- **C2.** The claim states `8 · n_occupied ≤ 7 · capacity` immediately
after any successful `insert` returns.  The code violates it: `needs_resize`
computes `(n_occupied * 8) / n_buckets > 7` with integer division, which is
equivalent to `n_occupied ≥ n_buckets`, not to the intended 7/8 bound (the
comment in the source says "Using a load factor of 7/8").  Evaluating the
embedded code: after inserting `(0,0) … (15,15)` (sixteen successful
`insert` returns, no panic), `n_occupied = 16` and `capacity = 16`, and
`8 · 16 = 128 > 112 = 7 · 16`. -/
theorem c2_insert16_violates_load_factor :
    (insertRange 16).map
      (fun m => (decide (8 * m.n_occupied ≤ 7 * m.n_buckets), m.n_occupied, m.n_buckets)) =
      some (false, 16, 16) := by
  rfl

/-- **C9.** The claim states that `get(k)` on a map with capacity 0 (such as
`new()`) returns absent without panicking.  The code violates it: fifth.rs
`probe_find` runs its loop `for step in 0..n_buckets` zero times when
`n_buckets = 0` and falls into `unreachable!(...)`, so `get` panics on a
fresh map (sixth.rs, by contrast, guards `n_buckets == 0` and returns
`None`).  In the embedding the panic is the outer `none`: `get` on `new()`
evaluates to `none`, not to `some none` ("returns `None`"). -/
theorem c9_get_on_empty_map_panics :
    ((Map.new idHasher : Map Nat Nat).get 5,
      (Map.new idHasher : Map Nat Nat).len) = (none, 0) := by
  rfl

/-- **C6 (counterexample).** The claim states that a requested capacity that
is already a power of two ≥ 16, such as 32, yields capacity exactly 32.  The
code (third.rs lines 85-94, identically second.rs 57-62 and lib.rs 84-89)
computes `1 << (32.ilog2() + 1) = 64`. -/
theorem c6_pow2_request_doubles :
    thirdWithCapacityCapacity 32 = 64 ∧ thirdWithCapacityCapacity 32 ≠ 32 := by
  have h32 : Nat.log2 32 = 5 := by
    rw [show (32 : Nat) = 2 ^ 5 by norm_num, Nat.log2_two_pow]
  unfold thirdWithCapacityCapacity
  rw [if_neg (by norm_num), if_neg (by norm_num), h32]
  norm_num

/-- **C6 (amended).** `with_capacity(n)` (third.rs 85-94, second.rs 57-62,
lib.rs 84-89) produces capacity 0 for `n = 0`; 16 for `1 ≤ n ≤ 15`; and
`2 ^ (⌊log₂ n⌋ + 1)` for `n ≥ 16` — the least power of two STRICTLY greater
than `n`.  For `n` not a power of two this equals the least power of two
`≥ n`, but a power-of-two request such as `n = 32` is doubled. -/
theorem c6_with_capacity_policy (n : Nat) :
    (n = 0 → thirdWithCapacityCapacity n = 0) ∧
    (1 ≤ n → n ≤ 15 → thirdWithCapacityCapacity n = 16) ∧
    (16 ≤ n → thirdWithCapacityCapacity n = 2 ^ (Nat.log2 n + 1) ∧
      n < thirdWithCapacityCapacity n) := by
  refine ⟨?_, ?_, ?_⟩
  · intro h
    subst h
    rfl
  · intro h1 h15
    unfold thirdWithCapacityCapacity
    rw [if_neg (by omega), if_pos (by omega)]
  · intro h16
    unfold thirdWithCapacityCapacity
    rw [if_neg (by omega), if_neg (by omega)]
    exact ⟨rfl, Nat.lt_log2_self⟩

/-- Witness for `c6_with_capacity_policy` at the concrete request 17. -/
theorem c6_with_capacity_policy_witness :
    thirdWithCapacityCapacity 17 = 2 ^ (Nat.log2 17 + 1) ∧ 17 < thirdWithCapacityCapacity 17 :=
  (c6_with_capacity_policy 17).2.2 (by norm_num)

/-- A concrete fresh 16-bucket table (capacity 16, all metadata EMPTY),
with the identity hash builder. -/
def wmap16 : Map Nat Nat :=
  { hasher := idHasher
    n_items := 0
    n_occupied := 0
    storage := List.replicate 16 none
    metadata := List.replicate 32 metadata.EMPTY }

/-- A concrete 32-bucket table holding the single pair `(0, 42)` at bucket 0
(metadata byte `from_h2 0 = 0` there, mirrored at position 32). -/
def wmap32 : Map Nat Nat :=
  { hasher := idHasher
    n_items := 1
    n_occupied := 1
    storage := some (0, 42) :: List.replicate 31 none
    metadata := (0 :: List.replicate 31 metadata.EMPTY) ++ (0 :: List.replicate 15 metadata.EMPTY) }

/-- **C5 (counterexample).** The claim states that in `_insert`'s
empty-bucket branch the `(k, v)` pair is written into `storage[idx]` first
and `set_metadata` is called only after that write.  The source order is the
opposite (fifth.rs lines 195-196, sixth.rs lines 256-257): the head of the
branch's mutation trace is the `set_metadata` call, not the storage write,
so the trace differs from the spec-prescribed trace already at the first
event (here at the concrete arguments `index = 0`, `h2 = 5`, pair
`(1, 2)`). -/
theorem c5_trace_starts_with_metadata_write :
    insertEmptyBranchTrace (K := Nat) (V := Nat) 0 5 1 2 ≠
      specInsertEmptyBranchTrace (K := Nat) (V := Nat) 0 5 1 2 ∧
    (insertEmptyBranchTrace (K := Nat) (V := Nat) 0 5 1 2).head? =
      some (WriteEvent.setMeta 0 (metadata.from_h2 5)) :=
  ⟨by decide, rfl⟩

/-- **C5 (amended).** In `_insert`'s empty-bucket branch the code calls
`set_metadata(index, from_h2(h2))` FIRST and writes the `(k, v)` pair into
`storage[index]` only afterwards: replaying the branch's two traced
mutations in source order (metadata write, then storage write) and bumping
both counters is exactly what `_insert` returns.  (Writing the pair is a
plain move of an owned value and cannot fail, so the reversed order leaves
I3 intact at every observable boundary; in `clone`, where user code can
panic, fifth.rs does write storage before metadata.) -/
theorem c5_insert_applies_trace_in_order {K V : Type} [DecidableEq K] (m : Map K V)
    (k : K) (v : V) (index h2 : Nat)
    (hp : m.probe_find k = some (.Empty index h2)) :
    m._insert k v =
      some ({ (insertEmptyBranchTrace index h2 k v).foldl Map.applyWrite m with
                n_items := m.n_items + 1
                n_occupied := m.n_occupied + 1 }, none) ∧
    insertEmptyBranchTrace index h2 k v =
      [WriteEvent.setMeta index (metadata.from_h2 h2),
        WriteEvent.writeStorage index (k, v)] := by
  constructor
  · unfold Map._insert
    rw [hp]
    rfl
  · rfl

/-- Witness for `c5_insert_applies_trace_in_order`: probing the fresh table
`wmap16` for key 3 yields `Empty(0, 3)`, and `_insert` replays the trace. -/
theorem c5_insert_applies_trace_in_order_witness :
    wmap16.probe_find 3 = some (.Empty 0 3) ∧
    wmap16._insert 3 9 =
      some ({ (insertEmptyBranchTrace 0 3 3 9).foldl Map.applyWrite wmap16 with
                n_items := wmap16.n_items + 1
                n_occupied := wmap16.n_occupied + 1 }, none) :=
  ⟨by rfl, (c5_insert_applies_trace_in_order wmap16 3 9 0 3 (by rfl)).1⟩

/-- **C3.** For `remove(k)` finding `k` at bucket `idx`: with capacity 16
the freed bucket is always reclaimed to EMPTY; with capacity > 16 the
decision is EMPTY exactly when `next_empty + 16 − last_empty < 16`, where
`next_empty` is the first empty lane of the group starting at `idx` (16 when
none) and `last_empty` is the last empty lane of the group starting at
`(idx − 16) mod capacity` (0 when none); and `remove` decrements
`n_occupied` exactly when the decision is EMPTY (while `n_items` always
drops by one and the removed value is returned). -/
theorem c3_remove_reclaim_decision {K V : Type} [DecidableEq K] (m : Map K V) (k : K)
    (idx : Nat) :
    (m.n_buckets = GROUP_SIZE → m.decide_tombstone_or_empty idx = metadata.empty) ∧
    (16 < m.n_buckets →
      m.decide_tombstone_or_empty idx =
        (if ((sse.find_first ((sse.Group.from_slice (m.metadata.drop idx)).to_empties)).getD 16
              + 16)
            - ((sse.find_last ((sse.Group.from_slice (m.metadata.drop
                (fast_rem (wrappingSub64 idx GROUP_SIZE) m.n_buckets))).to_empties)).getD 0)
            < 16
         then metadata.empty else metadata.tombstone)) ∧
    (∀ v : V, m.probe_find k = some (.Full idx) → m.storage.getD idx none = some (k, v) →
      (m.remove k).map (fun p => (p.1.n_occupied, p.1.n_items, p.2)) =
        some ((if metadata.is_empty (m.decide_tombstone_or_empty idx)
                then m.n_occupied - 1 else m.n_occupied), m.n_items - 1, some v)) := by
  refine ⟨?_, ?_, ?_⟩
  · intro h16
    unfold Map.decide_tombstone_or_empty
    rw [if_pos h16]
  · intro hgt
    unfold Map.decide_tombstone_or_empty
    rw [if_neg (by
      intro h
      rw [h] at hgt
      exact absurd hgt (by norm_num [GROUP_SIZE]))]
    rfl
  · intro v hp hs
    have hcong := Map.decide_tombstone_or_empty_congr
      ({ m with storage := m.storage.set idx none } : Map K V) m
      rfl (List.length_set _ _ _) idx
    unfold Map.remove
    simp only [hp, hs, Option.map_some']
    rw [hcong]
    rfl

/-- Witness for `c3_remove_reclaim_decision`: the degenerate conjunct at the
fresh capacity-16 table, the decision formula at `wmap32`, and the `remove`
accounting of the single stored pair of `wmap32`. -/
theorem c3_remove_reclaim_decision_witness :
    wmap16.decide_tombstone_or_empty 0 = metadata.empty ∧
    wmap32.decide_tombstone_or_empty 0 = metadata.empty ∧
    (wmap32.remove 0).map (fun p => (p.1.n_occupied, p.1.n_items, p.2)) =
      some (0, 0, some 42) := by
  refine ⟨(c3_remove_reclaim_decision wmap16 0 0).1 rfl, ?_, ?_⟩
  · rw [(c3_remove_reclaim_decision wmap32 0 0).2.1 (by decide)]
    rfl
  · rw [(c3_remove_reclaim_decision wmap32 0 0).2.2 42 (by rfl) (by rfl)]
    rfl

/-- **C4.** For every map satisfying the core shape invariants (power-of-two
capacity ≥ 16, mirrored metadata tail) in which either some metadata byte in
`[0, capacity)` is EMPTY or the probed key is present (stored with its `h2`
tag), `probe_find` needs only the outer-loop steps `0 … capacity/16 − 1`:
running the loop with that truncated step range already produces a result,
and `probe_find` (which runs steps `0 … n_buckets − 1`) returns exactly that
result.  Hence at most `⌊capacity/16⌋` group loads are performed. -/
theorem c4_probe_bounded_by_group_count {K V : Type} [DecidableEq K] (m : Map K V)
    (k : K) (hd : Map.Dims m)
    (hyp : (∃ i, i < m.n_buckets ∧ m.byteAt i = metadata.EMPTY) ∨
           (∃ i, i < m.n_buckets ∧ m.byteAt i = metadata.from_h2 (Map.h2Of m k) ∧
             Map.matchKeyAt m k i)) :
    (m.probeGo k (Map.h2Of m k) (List.range (m.n_buckets / 16))
        (Map.homeOf m k)).isSome = true ∧
      m.probe_find k =
        m.probeGo k (Map.h2Of m k) (List.range (m.n_buckets / 16)) (Map.homeOf m k) := by
  have hmain := Map.probe_hits_within_group_count hd k hyp
  have hgo : m.probeGo k (Map.h2Of m k) (List.range (m.n_buckets / 16)) (Map.homeOf m k) =
      (List.range (m.n_buckets / 16)).findSome?
        (fun j => Map.stepResult m k (Map.h2Of m k)
          (Map.windowStart (Map.homeOf m k) m.n_buckets j)) := by
    rw [List.range_eq_range']
    exact Map.probeGo_eq_findSome? hd k (Map.h2Of m k) (Map.homeOf m k)
      (m.n_buckets / 16) 0 (Map.homeOf m k) (by simp [Map.windowStart, Map.T])
  rw [hgo]
  exact ⟨hmain.1, hmain.2⟩

/-- Witness for `c4_probe_bounded_by_group_count` at the fresh 16-bucket
table, probing an absent key: the single-window walk already answers. -/
theorem c4_probe_bounded_by_group_count_witness :
    (wmap16.probeGo 5 (Map.h2Of wmap16 5) (List.range (wmap16.n_buckets / 16))
        (Map.homeOf wmap16 5)).isSome = true ∧
      wmap16.probe_find 5 =
        wmap16.probeGo 5 (Map.h2Of wmap16 5) (List.range (wmap16.n_buckets / 16))
          (Map.homeOf wmap16 5) :=
  c4_probe_bounded_by_group_count wmap16 5
    ⟨⟨4, by norm_num, by norm_num, by decide⟩, by decide, by decide⟩
    (Or.inl ⟨0, by decide, by decide⟩)

/-! ## Dimension preservation through the operations -/

/-- `fix_capacity` is the identity on powers of two ≥ 16. -/
theorem fix_capacity_pow2 {kk : Nat} (h4 : 4 ≤ kk) : fix_capacity (2 ^ kk) = 2 ^ kk := by
  have h16 : (16 : Nat) ≤ 2 ^ kk := by
    calc (16 : Nat) = 2 ^ 4 := rfl
    _ ≤ 2 ^ kk := Nat.pow_le_pow_right (by norm_num) h4
  unfold fix_capacity
  rw [if_neg (by omega), if_neg (by omega), if_pos (by rw [Nat.log2_two_pow])]

/-- A capacity-0 map in its canonical shape (what `new()` produces). -/
def ZeroShape {K V : Type} (m : Map K V) : Prop :=
  m.storage = [] ∧ m.metadata = []

namespace Map

variable {K V : Type} [DecidableEq K]

theorem zero_n_buckets {m : Map K V} (hz : ZeroShape m) : m.n_buckets = 0 := by
  unfold n_buckets
  rw [hz.1]
  rfl

/-- The mirror property alone (spec invariant I2); trivially true at
capacity 0. -/
def MirrorOk (m : Map K V) : Prop :=
  ∀ i, i < GROUP_SIZE → m.metadata.getD (m.n_buckets + i) 0 = m.metadata.getD i 0

theorem Dims.mirrorOk {m : Map K V} (hd : Dims m) : MirrorOk m := hd.mirror

theorem mirrorOk_zero {m : Map K V} (hz : ZeroShape m) : MirrorOk m := by
  intro i _
  rw [zero_n_buckets hz, Nat.zero_add]

theorem freshTable_n_buckets (hasher : K → Nat) (cap : Nat) :
    (freshTable hasher cap : Map K V).n_buckets = cap :=
  List.length_replicate cap none

/-- The table allocated by `resize` at a power-of-two capacity satisfies
the dimension invariants. -/
theorem fresh_dims (hasher : K → Nat) {cap kk : Nat} (h4 : 4 ≤ kk) (h64 : kk ≤ 64)
    (hcap : cap = 2 ^ kk) : Dims (freshTable hasher cap : Map K V) := by
  have hn := freshTable_n_buckets (V := V) hasher cap
  refine ⟨⟨kk, h4, h64, by rw [hn, hcap]⟩, ?_, ?_⟩
  · rw [hn]
    exact List.length_replicate _ _
  · intro i hi
    rw [hn]
    show (List.replicate (cap + GROUP_SIZE) metadata.empty).getD (cap + i) 0 =
      (List.replicate (cap + GROUP_SIZE) metadata.empty).getD i 0
    have hG : (GROUP_SIZE : Nat) = 16 := rfl
    rw [List.getD_eq_getElem?_getD, List.getElem?_replicate_of_lt (by omega),
      List.getD_eq_getElem?_getD, List.getElem?_replicate_of_lt (by omega)]

/-- Replacing the storage array by one of equal length (and arbitrary
counters) preserves `Dims`, which only constrains the array shapes. -/
theorem Dims.relabel {m : Map K V} (hd : Dims m) {s' : List (Option (K × V))}
    (hlen : s'.length = m.storage.length) (hash' : K → Nat) (ni no : Nat) :
    Dims ({ hasher := hash', n_items := ni, n_occupied := no, storage := s',
            metadata := m.metadata } : Map K V) := by
  have hn : ({ hasher := hash', n_items := ni, n_occupied := no, storage := s',
               metadata := m.metadata } : Map K V).n_buckets = m.n_buckets := hlen
  exact ⟨by rw [hn]; exact hd.cap_pow, by rw [hn]; exact hd.mlen,
    by intro i hi; rw [hn]; exact hd.mirror i hi⟩

/-- Replacing only the storage array by one of equal length preserves
`Dims`. -/
theorem Dims.storage_update {m : Map K V} (hd : Dims m) {s' : List (Option (K × V))}
    (hlen : s'.length = m.storage.length) : Dims ({ m with storage := s' } : Map K V) :=
  hd.relabel hlen m.hasher m.n_items m.n_occupied

/-- Any index reported by `probe_find` (as `Empty` or `Full`) is a valid
bucket index. -/
theorem probe_find_index_lt {m : Map K V} (hd : Dims m) {k : K} {r : ProbeResult}
    (h : m.probe_find k = some r) :
    (∀ idx h2, r = .Empty idx h2 → idx < m.n_buckets) ∧
      (∀ idx, r = .Full idx → idx < m.n_buckets) := by
  rw [probe_find_eq_findSome? hd k] at h
  obtain ⟨j, _, hj⟩ := List.exists_of_findSome?_eq_some h
  constructor
  · rintro idx h2 rfl
    rw [stepResult_eq_empty_iff] at hj
    obtain ⟨_, _, e, _, hidx⟩ := hj
    rw [hidx, hd.fast_rem_eq]
    exact Nat.mod_lt _ hd.pos
  · rintro idx rfl
    rw [stepResult_eq_full_iff] at hj
    rw [probeCandidates_eq_some_iff hd (windowStart_lt hd.pos j)] at hj
    obtain ⟨l, _, _, hidx, _, _⟩ := hj
    rw [hidx]
    exact Nat.mod_lt _ hd.pos

/-- `_insert` preserves the dimension invariants, the bucket count and the
hash builder. -/
theorem Dims._insert_preserved {m : Map K V} (hd : Dims m) {k : K} {v : V}
    {m' : Map K V} {r : Option V} (h : m._insert k v = some (m', r)) :
    Dims m' ∧ m'.n_buckets = m.n_buckets ∧ m'.hasher = m.hasher := by
  unfold Map._insert at h
  rcases hp : m.probe_find k with _ | pr
  · rw [hp] at h
    exact Option.noConfusion h
  · rcases pr with ⟨idx, h2⟩ | idx
    · -- Empty branch
      simp only [hp, Option.some.injEq, Prod.mk.injEq] at h
      have hidx : idx < m.n_buckets := (probe_find_index_lt hd hp).1 idx h2 rfl
      obtain ⟨hm', _⟩ := h
      have hd1 : Dims (m.set_metadata idx (metadata.from_h2 h2)) :=
        hd.set_metadata_preserved hidx _
      have hlen : ((m.set_metadata idx (metadata.from_h2 h2)).storage.set idx
          (some (k, v))).length = (m.set_metadata idx (metadata.from_h2 h2)).storage.length :=
        List.length_set _ _ _
      refine ⟨?_, ?_, ?_⟩
      · rw [← hm']
        exact hd1.relabel hlen _ _ _
      · rw [← hm']
        show ((m.set_metadata idx (metadata.from_h2 h2)).storage.set idx
          (some (k, v))).length = m.storage.length
        rw [List.length_set]
        rfl
      · rw [← hm']
        rfl
    · -- Full branch
      simp only [hp] at h
      rcases hs : m.storage.getD idx none with _ | kv
      · simp only [hs] at h
        exact Option.noConfusion h
      · simp only [hs, Option.some.injEq, Prod.mk.injEq] at h
        obtain ⟨hm', _⟩ := h
        refine ⟨?_, ?_, ?_⟩
        · rw [← hm']
          exact hd.relabel (List.length_set _ _ _) _ _ _
        · rw [← hm']
          exact List.length_set _ _ _
        · rw [← hm']

/-- Invariant preservation along an `Option`-monadic fold. -/
theorem foldlM_preserves {α β : Type} (P : β → Prop) (step : β → α → Option β)
    (l : List α) (hstep : ∀ acc a, a ∈ l → P acc → ∀ acc', step acc a = some acc' → P acc') :
    ∀ (b0 : β), P b0 → ∀ bf, l.foldlM step b0 = some bf → P bf := by
  induction l with
  | nil =>
    intro b0 h0 bf hf
    simp only [List.foldlM_nil] at hf
    obtain rfl : b0 = bf := by simpa using hf
    exact h0
  | cons a l ih =>
    intro b0 h0 bf hf
    rw [List.foldlM_cons] at hf
    rcases hstep0 : step b0 a with _ | b1
    · rw [hstep0] at hf
      exact Option.noConfusion hf
    · rw [hstep0] at hf
      exact ih (fun acc x hx => hstep acc x (by simp [hx]))
        b1 (hstep b0 a (by simp) h0 b1 hstep0) bf hf

/-- Invariant preservation along a pure fold. -/
theorem foldl_preserves {α β : Type} (P : β → Prop) (step : β → α → β) (l : List α)
    (hstep : ∀ acc a, a ∈ l → P acc → P (step acc a)) :
    ∀ (b0 : β), P b0 → P (l.foldl step b0) := by
  induction l with
  | nil => intro b0 h0; exact h0
  | cons a l ih =>
    intro b0 h0
    rw [List.foldl_cons]
    exact ih (fun acc x hx => hstep acc x (by simp [hx])) _ (hstep b0 a (by simp) h0)

/-- `resize` allocates a table of the doubled (or initial 16) capacity and
every rehash-insert preserves the dimension invariants. -/
theorem resize_dims {m : Map K V}
    (h : (Dims m ∧ m.n_buckets ≤ 2 ^ 63) ∨ ZeroShape m) {m' : Map K V}
    (hr : m.resize = some m') :
    Dims m' ∧ m'.n_buckets = (if m.n_buckets = 0 then 16 else 2 * m.n_buckets) ∧
      m'.hasher = m.hasher := by
  have hfresh : ∃ kk, 4 ≤ kk ∧ kk ≤ 64 ∧
      (if m.n_buckets = 0 then 16 else m.n_buckets * 2) = 2 ^ kk := by
    rcases h with ⟨hd, hsmall⟩ | hz
    · obtain ⟨kk, h4, _, hn⟩ := hd.cap_pow
      refine ⟨kk + 1, by omega, ?_, ?_⟩
      · by_contra hgt
        have h64le : (64 : Nat) ≤ kk := by omega
        have hup : (2 : Nat) ^ 64 ≤ 2 ^ kk := Nat.pow_le_pow_right (by norm_num) h64le
        have hdown : m.n_buckets ≤ 2 ^ 63 := hsmall
        rw [hn] at hdown
        have : (2 : Nat) ^ 63 < 2 ^ 64 := by norm_num
        omega
      · rw [if_neg (by rw [hn]; positivity), hn, pow_succ]
    · refine ⟨4, by norm_num, by norm_num, ?_⟩
      rw [if_pos (zero_n_buckets hz)]
      norm_num
  obtain ⟨kk, h4, h64, hcap⟩ := hfresh
  unfold Map.resize at hr
  have hstep : ∀ (acc : Map K V) chunk,
      chunk ∈ (chunksExact16 m.metadata).zip (chunksExact16 m.storage) →
      (Dims acc ∧ acc.n_buckets = (if m.n_buckets = 0 then 16 else m.n_buckets * 2) ∧
        acc.hasher = m.hasher) →
      ∀ acc', resizeMoveChunk acc chunk = some acc' →
      (Dims acc' ∧ acc'.n_buckets = (if m.n_buckets = 0 then 16 else m.n_buckets * 2) ∧
        acc'.hasher = m.hasher) := by
    rintro acc chunk - hPacc acc' hstepo
    unfold resizeMoveChunk at hstepo
    refine foldlM_preserves
      (fun acc : Map K V => Dims acc ∧
        acc.n_buckets = (if m.n_buckets = 0 then 16 else m.n_buckets * 2) ∧
        acc.hasher = m.hasher)
      resizeMoveBucket _ ?_ acc hPacc acc' hstepo
    rintro acc2 fb - ⟨hd2, hn2, hh2⟩ acc2' hstep2
    unfold resizeMoveBucket at hstep2
    by_cases hb : fb.1
    · rw [if_pos hb] at hstep2
      rcases hbucket : fb.2 with _ | kv
      · rw [hbucket] at hstep2
        exact Option.noConfusion hstep2
      · rw [hbucket] at hstep2
        rw [Option.map_eq_some'] at hstep2
        obtain ⟨p, hp, hp1⟩ := hstep2
        rcases p with ⟨pm, pr⟩
        obtain ⟨hdp, hnp, hhp⟩ := hd2._insert_preserved hp
        subst hp1
        exact ⟨hdp, by rw [hnp, hn2], by rw [hhp, hh2]⟩
    · rw [if_neg hb] at hstep2
      obtain rfl : acc2 = acc2' := by simpa using hstep2
      exact ⟨hd2, hn2, hh2⟩
  have hbase : Dims (freshTable m.hasher
        (if m.n_buckets = 0 then 16 else m.n_buckets * 2) : Map K V) ∧
      (freshTable m.hasher
        (if m.n_buckets = 0 then 16 else m.n_buckets * 2) : Map K V).n_buckets =
        (if m.n_buckets = 0 then 16 else m.n_buckets * 2) ∧
      (freshTable m.hasher
        (if m.n_buckets = 0 then 16 else m.n_buckets * 2) : Map K V).hasher = m.hasher :=
    ⟨fresh_dims m.hasher h4 h64 hcap, freshTable_n_buckets m.hasher _, rfl⟩
  have hP := foldlM_preserves _ resizeMoveChunk _ hstep _ hbase m' hr
  refine ⟨hP.1, ?_, hP.2.2⟩
  rw [hP.2.1]
  by_cases h0 : m.n_buckets = 0
  · rw [if_pos h0, if_pos h0]
  · rw [if_neg h0, if_neg h0]
    ring

end Map

/-! ## Mirror preservation across all operations (claim C8) -/

namespace Map

variable {K V : Type} [DecidableEq K]

theorem mirrorOk_freshTable (hasher : K → Nat) (cap : Nat) :
    MirrorOk (freshTable hasher cap : Map K V) := by
  intro i hi
  rw [freshTable_n_buckets]
  show (List.replicate (cap + GROUP_SIZE) metadata.empty).getD (cap + i) 0 =
    (List.replicate (cap + GROUP_SIZE) metadata.empty).getD i 0
  have hG : (GROUP_SIZE : Nat) = 16 := rfl
  rw [hG] at hi
  rw [List.getD_eq_getElem?_getD, List.getElem?_replicate_of_lt (by omega),
    List.getD_eq_getElem?_getD, List.getElem?_replicate_of_lt (by omega)]

theorem with_capacity_eq_freshTable (hasher : K → Nat) {c : Nat}
    (hne : fix_capacity c ≠ 0) :
    (with_capacity hasher c : Map K V) = freshTable hasher (fix_capacity c) := by
  unfold with_capacity freshTable
  simp only [if_neg hne]

theorem mirrorOk_with_capacity (hasher : K → Nat) (c : Nat) :
    MirrorOk (with_capacity hasher c : Map K V) := by
  by_cases h0 : fix_capacity c = 0
  · intro i hi
    unfold with_capacity
    simp only [h0, if_pos rfl]
    have hn : (List.replicate 0 (none : Option (K × V))).length = 0 := rfl
    show ([] : List Nat).getD ((List.replicate 0 (none : Option (K × V))).length + i) 0 =
      ([] : List Nat).getD i 0
    rfl
  · rw [with_capacity_eq_freshTable hasher h0]
    exact mirrorOk_freshTable hasher _

/-- Updating only the two counters preserves `Dims`. -/
theorem Dims.counters_update {m : Map K V} (hd : Dims m) (ni no : Nat) :
    Dims ({ m with n_items := ni, n_occupied := no } : Map K V) :=
  hd.relabel rfl m.hasher ni no

/-- `insert` (resize included) preserves the dimension invariants. -/
theorem Dims.insert_preserved {m : Map K V}
    (h : (Dims m ∧ m.n_buckets ≤ 2 ^ 63) ∨ ZeroShape m) {k : K} {v : V}
    {p : Map K V × Option V} (hp : m.insert k v = some p) : Dims p.1 := by
  unfold Map.insert at hp
  by_cases hnr : m.needs_resize
  · rw [if_pos hnr] at hp
    rw [Option.bind_eq_some] at hp
    obtain ⟨m2, hm2, hins⟩ := hp
    have hd2 := (resize_dims h hm2).1
    rcases p with ⟨pm, pr⟩
    exact (hd2._insert_preserved hins).1
  · rw [if_neg hnr] at hp
    rcases h with ⟨hd, _⟩ | hz
    · rcases p with ⟨pm, pr⟩
      exact (hd._insert_preserved hp).1
    · exfalso
      apply hnr
      unfold needs_resize
      rw [zero_n_buckets hz]
      rfl

/-- `remove` preserves the dimension invariants. -/
theorem Dims.remove_preserved {m : Map K V} (hd : Dims m) {k : K}
    {p : Map K V × Option V} (hp : m.remove k = some p) : Dims p.1 := by
  unfold Map.remove at hp
  rcases hprobe : m.probe_find k with _ | pr
  · rw [hprobe] at hp
    exact Option.noConfusion hp
  · rcases pr with ⟨idx, h2⟩ | idx
    · simp only [hprobe, Option.some.injEq] at hp
      rw [← hp]
      exact hd
    · simp only [hprobe] at hp
      rcases hs : m.storage.getD idx none with _ | kv
      · simp only [hs] at hp
        exact Option.noConfusion hp
      · simp only [hs, Option.some.injEq] at hp
        have hidx : idx < m.n_buckets := (probe_find_index_lt hd hprobe).2 idx rfl
        have hd1 : Dims ({ m with storage := m.storage.set idx none } : Map K V) :=
          hd.storage_update (List.length_set _ _ _)
        have hidx1 : idx < ({ m with storage := m.storage.set idx none } :
            Map K V).n_buckets := by
          show idx < (m.storage.set idx none).length
          rw [List.length_set]
          exact hidx
        have hd2 := hd1.set_metadata_preserved hidx1
          (({ m with storage := m.storage.set idx none } :
            Map K V).decide_tombstone_or_empty idx)
        rw [← hp]
        exact hd2.counters_update _ _
      
/-- `clone` preserves the dimension invariants (with the same bucket
count). -/
theorem Dims.clone_preserved {m : Map K V} (hd : Dims m) :
    Dims m.clone ∧ m.clone.n_buckets = m.n_buckets := by
  obtain ⟨kk, h4, h64, hn⟩ := hd.cap_pow
  have hfix : fix_capacity m.n_buckets = m.n_buckets := by
    rw [hn]
    exact fix_capacity_pow2 h4
  have hinit : Dims (with_capacity m.hasher m.n_buckets : Map K V) ∧
      (with_capacity m.hasher m.n_buckets : Map K V).n_buckets = m.n_buckets := by
    rw [with_capacity_eq_freshTable m.hasher (by rw [hfix, hn]; positivity), hfix]
    exact ⟨fresh_dims m.hasher h4 h64 hn, freshTable_n_buckets m.hasher _⟩
  unfold Map.clone
  refine foldl_preserves
    (fun acc : Map K V => Dims acc ∧ acc.n_buckets = m.n_buckets) _ _ ?_ _ hinit
  intro acc i hi ⟨hda, hna⟩
  have hilt : i < m.n_buckets := List.mem_range.mp hi
  by_cases hfull : metadata.is_full (m.metadata.getD i 0)
  · rw [if_pos hfull]
    rcases hs : m.storage.getD i none with _ | kv
    · exact ⟨hda, hna⟩
    · have hda1 : Dims ({ acc with storage := acc.storage.set i (some kv) } : Map K V) :=
        hda.storage_update (List.length_set _ _ _)
      have hna1 : ({ acc with storage := acc.storage.set i (some kv) } :
          Map K V).n_buckets = m.n_buckets := by
        show (acc.storage.set i (some kv)).length = m.n_buckets
        rw [List.length_set]
        exact hna
      have hda2 := hda1.set_metadata_preserved (by rw [hna1]; exact hilt)
        (m.metadata.getD i 0)
      refine ⟨hda2.counters_update _ _, ?_⟩
      show (({ acc with storage := acc.storage.set i (some kv) } :
          Map K V).set_metadata i (m.metadata.getD i 0)).storage.length = m.n_buckets
      rw [set_metadata_storage]
      exact hna1
  · rw [if_neg hfull]
    exact ⟨hda, hna⟩

end Map

/-- **C8.** Every operation preserves the mirror invariant I2 (for every
`i < 16`, `metadata[capacity + i] = metadata[i]`): `with_capacity` builds
mirrored (all-EMPTY) metadata; `set_metadata(i, v)` writes exactly the two
physical positions `i mod capacity` and `((i − 16) mod capacity) + 16`; and
`insert` (resize included), `remove`, `resize` and `clone` keep the mirror
intact on every successful return.  Capacity-positive hypotheses are the
power-of-two shape facts `Dims` (with room to double where the operation may
resize); capacity-0 maps are covered by `ZeroShape`. -/
theorem c8_mirror_invariant {K V : Type} [DecidableEq K] :
    (∀ (hasher : K → Nat) (c : Nat),
      Map.MirrorOk (Map.with_capacity hasher c : Map K V)) ∧
    (∀ (m : Map K V), Map.Dims m → ∀ i val,
      (m.set_metadata i val).metadata =
        (m.metadata.set (i % m.n_buckets) val).set
          ((i % m.n_buckets + (m.n_buckets - 16)) % m.n_buckets + 16) val) ∧
    (∀ (m : Map K V) (k : K) (v : V),
      (Map.Dims m ∧ m.n_buckets ≤ 2 ^ 63) ∨ ZeroShape m →
      ∀ p, m.insert k v = some p → Map.MirrorOk p.1) ∧
    (∀ (m : Map K V) (k : K), Map.Dims m →
      ∀ p, m.remove k = some p → Map.MirrorOk p.1) ∧
    (∀ (m : Map K V), (Map.Dims m ∧ m.n_buckets ≤ 2 ^ 63) ∨ ZeroShape m →
      ∀ m', m.resize = some m' → Map.MirrorOk m') ∧
    (∀ (m : Map K V), Map.Dims m ∨ ZeroShape m → Map.MirrorOk m.clone) := by
  refine ⟨Map.mirrorOk_with_capacity, ?_, ?_, ?_, ?_, ?_⟩
  · intro m hd i val
    exact Map.set_metadata_metadata hd i val
  · intro m k v h p hp
    exact (Map.Dims.insert_preserved h hp).mirrorOk
  · intro m k hd p hp
    exact (Map.Dims.remove_preserved hd hp).mirrorOk
  · intro m h m' hr
    exact (Map.resize_dims h hr).1.mirrorOk
  · intro m h
    rcases h with hd | hz
    · exact (hd.clone_preserved).1.mirrorOk
    · unfold Map.clone
      rw [Map.zero_n_buckets hz]
      exact Map.mirrorOk_with_capacity m.hasher 0

/-- `wmap32` satisfies the dimension invariants (kk = 5). -/
theorem wmap32_dims : Map.Dims wmap32 :=
  ⟨⟨5, by norm_num, by norm_num, by decide⟩, by decide, by decide⟩

/-- Witness for `c8_mirror_invariant`: the `with_capacity`, `set_metadata`,
`remove` and `clone` conjuncts applied at concrete inputs. -/
theorem c8_mirror_invariant_witness :
    Map.MirrorOk (Map.with_capacity idHasher 5 : Map Nat Nat) ∧
    (wmap32.set_metadata 3 7).metadata =
      (wmap32.metadata.set (3 % wmap32.n_buckets) 7).set
        ((3 % wmap32.n_buckets + (wmap32.n_buckets - 16)) % wmap32.n_buckets + 16) 7 ∧
    (wmap32.remove 0).elim False (fun p => Map.MirrorOk p.1) ∧
    Map.MirrorOk wmap32.clone := by
  refine ⟨(c8_mirror_invariant (K := Nat) (V := Nat)).1 idHasher 5,
    (c8_mirror_invariant (K := Nat) (V := Nat)).2.1 wmap32 wmap32_dims 3 7, ?_,
    (c8_mirror_invariant (K := Nat) (V := Nat)).2.2.2.2.2 wmap32 (Or.inl wmap32_dims)⟩
  rcases hrem : wmap32.remove 0 with _ | p
  · have hsome : (wmap32.remove 0).isSome = true := by rfl
    rw [hrem] at hsome
    simp at hsome
  · exact (c8_mirror_invariant (K := Nat) (V := Nat)).2.2.2.1 wmap32 0 wmap32_dims p hrem

/-! ## Auxiliary list lemmas for the rehash argument -/

theorem getD_cons_zero' {α : Type} (a : α) (l : List α) (d : α) : (a :: l).getD 0 d = a := rfl

theorem getD_cons_succ' {α : Type} (a : α) (l : List α) (n : Nat) (d : α) :
    (a :: l).getD (n + 1) d = l.getD n d := rfl

/-- Two lists of equal length whose predicates agree pointwise have equal
`countP`. -/
theorem countP_congr_pointwise {α β : Type} (p : α → Bool) (q : β → Bool) (d1 : α) (d2 : β) :
    ∀ (l1 : List α) (l2 : List β), l1.length = l2.length →
      (∀ i, i < l1.length → p (l1.getD i d1) = q (l2.getD i d2)) →
      l1.countP p = l2.countP q := by
  intro l1
  induction l1 with
  | nil =>
    intro l2 hlen _
    rw [List.length_eq_zero.mp hlen.symm]
    rfl
  | cons a l ih =>
    intro l2 hlen hpt
    cases l2 with
    | nil => exact absurd hlen (by simp)
    | cons b l2 =>
      rw [List.countP_cons, List.countP_cons]
      have h0 := hpt 0 (by simp)
      rw [getD_cons_zero', getD_cons_zero'] at h0
      have htail := ih l2 (by simpa using hlen) (by
        intro i hi
        have := hpt (i + 1) (by simpa using Nat.succ_lt_succ hi)
        rwa [getD_cons_succ', getD_cons_succ'] at this)
      rw [h0, htail]

/-- Setting a slot whose predicate was false to a value whose predicate is
true increments `countP` by one. -/
theorem countP_set_flip {α : Type} (p : α → Bool) (d : α) :
    ∀ (l : List α) (i : Nat) (a : α), i < l.length → p (l.getD i d) = false →
      p a = true → (l.set i a).countP p = l.countP p + 1 := by
  intro l
  induction l with
  | nil => intro i a hi _ _; exact absurd hi (by simp)
  | cons x l ih =>
    intro i a hi hold hnew
    cases i with
    | zero =>
      rw [getD_cons_zero'] at hold
      rw [List.set_cons_zero, List.countP_cons, List.countP_cons, hold, hnew]
      simp
    | succ i =>
      rw [getD_cons_succ'] at hold
      rw [List.set_cons_succ, List.countP_cons, List.countP_cons,
        ih i a (by simpa using hi) hold hnew]
      omega

/-- A successful `findSome?` splits the list at the first firing element. -/
theorem findSome?_eq_some_split {α β : Type} {f : α → Option β} {r : β} :
    ∀ {l : List α}, l.findSome? f = some r →
      ∃ l1 a l2, l = l1 ++ a :: l2 ∧ (∀ x ∈ l1, f x = none) ∧ f a = some r := by
  intro l
  induction l with
  | nil => intro h; exact Option.noConfusion h
  | cons a l ih =>
    intro h
    rw [List.findSome?_cons] at h
    rcases hf : f a with _ | x
    · simp only [hf] at h
      obtain ⟨l1, b, l2, hsplit, hnone, hb⟩ := ih h
      refine ⟨a :: l1, b, l2, by rw [hsplit]; rfl, ?_, hb⟩
      intro x hx
      rcases List.mem_cons.mp hx with rfl | hx
      · exact hf
      · exact hnone x hx
    · simp only [hf] at h
      exact ⟨[], a, l, rfl, by intro x hx; simp at hx, by rw [hf, h]⟩

/-- A scan over a list whose prefix yields nothing fires at the first
element that produces a value. -/
theorem findSome?_fire {α β : Type} {l1 l2 : List α} {a : α} {g : α → Option β} {r : β}
    (hnone : ∀ x ∈ l1, g x = none) (ha : g a = some r) :
    ((l1 ++ a :: l2).findSome? g) = some r := by
  rw [List.findSome?_append, List.findSome?_eq_none_iff.mpr hnone, List.findSome?_cons, ha]
  rfl

namespace Map

variable {K V : Type} [DecidableEq K]

/-- `bucket_index_and_h2` depends only on the hash builder and the bucket
count. -/
theorem bucket_index_and_h2_congr {m m' : Map K V} (hh : m'.hasher = m.hasher)
    (hn : m'.n_buckets = m.n_buckets) (k : K) :
    m'.bucket_index_and_h2 k = m.bucket_index_and_h2 k := by
  unfold bucket_index_and_h2 make_hash
  rw [hh, hn]

theorem homeOf_congr {m m' : Map K V} (hh : m'.hasher = m.hasher)
    (hn : m'.n_buckets = m.n_buckets) (k : K) : homeOf m' k = homeOf m k := by
  unfold homeOf
  rw [bucket_index_and_h2_congr hh hn]

theorem h2Of_congr {m m' : Map K V} (hh : m'.hasher = m.hasher)
    (hn : m'.n_buckets = m.n_buckets) (k : K) : h2Of m' k = h2Of m k := by
  unfold h2Of
  rw [bucket_index_and_h2_congr hh hn]

theorem matchKeyAt_congr {m m' : Map K V} {k : K} {p : Nat}
    (hp : m'.storage.getD p none = m.storage.getD p none) :
    matchKeyAt m' k p ↔ matchKeyAt m k p := by
  unfold matchKeyAt
  rw [hp]

/-- The candidate scan of a window only depends on the window's bytes and
slots. -/
theorem probeCandidates_congr {m m' : Map K V} (hd : Dims m) (hd' : Dims m') {k : K}
    {h2 w : Nat} (hw : w < m.n_buckets) (hn : m'.n_buckets = m.n_buckets)
    (hbyte : ∀ l, l < 16 → m'.byteAt ((w + l) % m.n_buckets) = m.byteAt ((w + l) % m.n_buckets))
    (hslot : ∀ l, l < 16 →
      m'.storage.getD ((w + l) % m.n_buckets) none = m.storage.getD ((w + l) % m.n_buckets) none) :
    probeCandidates m' k h2 w = probeCandidates m k h2 w := by
  have hw' : w < m'.n_buckets := by rw [hn]; exact hw
  rcases hc : probeCandidates m k h2 w with _ | j
  · rw [probeCandidates_eq_none_iff hd hw] at hc
    rw [probeCandidates_eq_none_iff hd' hw', hn]
    intro l hl hb
    rw [matchKeyAt_congr (hslot l hl)]
    exact hc l hl (by rw [← hbyte l hl]; exact hb)
  · rw [probeCandidates_eq_some_iff hd hw] at hc
    rw [probeCandidates_eq_some_iff hd' hw', hn]
    obtain ⟨l, hl, hb, hj, hm, hmin⟩ := hc
    refine ⟨l, hl, by rw [hbyte l hl]; exact hb, hj, ?_, ?_⟩
    · rw [hj, matchKeyAt_congr (hslot l hl)]
      exact hj ▸ hm
    · intro l' hl' hb'
      rw [matchKeyAt_congr (hslot l' (by omega))]
      exact hmin l' hl' (by rw [← hbyte l' (by omega)]; exact hb')

/-- The first-empty scan of a window only depends on the window's bytes. -/
theorem first_empty_congr {m m' : Map K V} (hd : Dims m) (hd' : Dims m') {w : Nat}
    (hw : w < m.n_buckets) (hn : m'.n_buckets = m.n_buckets)
    (hbyte : ∀ l, l < 16 → m'.byteAt ((w + l) % m.n_buckets) = m.byteAt ((w + l) % m.n_buckets)) :
    sse.find_first ((sse.Group.from_slice (m'.metadata.drop w)).to_empties) =
      sse.find_first ((sse.Group.from_slice (m.metadata.drop w)).to_empties) := by
  have hw' : w < m'.n_buckets := by rw [hn]; exact hw
  rcases he : sse.find_first ((sse.Group.from_slice (m.metadata.drop w)).to_empties) with _ | e
  · rw [group_first_empty_eq_none_iff hd hw] at he
    rw [group_first_empty_eq_none_iff hd' hw', hn]
    intro l hl
    rw [hbyte l hl]
    exact he l hl
  · rw [group_first_empty_eq_some_iff hd hw] at he
    rw [group_first_empty_eq_some_iff hd' hw', hn]
    obtain ⟨hel, hb, hmin⟩ := he
    refine ⟨hel, by rw [hbyte e hel]; exact hb, ?_⟩
    intro l hl
    rw [hbyte l (by omega)]
    exact hmin l hl

/-- A probe step only depends on the window's bytes and slots. -/
theorem stepResult_congr {m m' : Map K V} (hd : Dims m) (hd' : Dims m') {k : K}
    {h2 w : Nat} (hw : w < m.n_buckets) (hn : m'.n_buckets = m.n_buckets)
    (hbyte : ∀ l, l < 16 → m'.byteAt ((w + l) % m.n_buckets) = m.byteAt ((w + l) % m.n_buckets))
    (hslot : ∀ l, l < 16 →
      m'.storage.getD ((w + l) % m.n_buckets) none = m.storage.getD ((w + l) % m.n_buckets) none) :
    stepResult m' k h2 w = stepResult m k h2 w := by
  unfold stepResult
  rw [probeCandidates_congr hd hd' hw hn hbyte hslot,
    first_empty_congr hd hd' hw hn hbyte]
  rcases probeCandidates m k h2 w with _ | j
  · rcases sse.find_first ((sse.Group.from_slice (m.metadata.drop w)).to_empties) with _ | e
    · rfl
    · show some (ProbeResult.Empty (fast_rem (w + e) m'.n_buckets) h2) =
        some (ProbeResult.Empty (fast_rem (w + e) m.n_buckets) h2)
      rw [hn]
  · rfl

end Map

/-! ## Well-formed tables -/

namespace Map

variable {K V : Type} [DecidableEq K]

/-- Metadata/storage agreement at one bucket: an initialized slot carries
the `from_h2` tag of its key's hash; an uninitialized slot carries EMPTY or
TOMBSTONE (spec invariants I3 and I4). -/
def slotTag (m : Map K V) (i : Nat) : Prop :=
  match m.storage.getD i none with
  | some kv => m.byteAt i = metadata.from_h2 (h2Of m kv.1)
  | none => m.byteAt i = metadata.EMPTY ∨ m.byteAt i = metadata.TOMBSTONE

theorem slotTag_none_iff {m : Map K V} {i : Nat} (hs : m.storage.getD i none = none) :
    slotTag m i ↔ (m.byteAt i = metadata.EMPTY ∨ m.byteAt i = metadata.TOMBSTONE) := by
  unfold slotTag
  rw [hs]

theorem slotTag_some_iff {m : Map K V} {i : Nat} {kv : K × V}
    (hs : m.storage.getD i none = some kv) :
    slotTag m i ↔ m.byteAt i = metadata.from_h2 (h2Of m kv.1) := by
  unfold slotTag
  rw [hs]

instance slotTag.decidable (m : Map K V) (i : Nat) : Decidable (slotTag m i) :=
  match hs : m.storage.getD i none with
  | some kv =>
    decidable_of_iff (m.byteAt i = metadata.from_h2 (h2Of m kv.1)) (slotTag_some_iff hs).symm
  | none =>
    decidable_of_iff (m.byteAt i = metadata.EMPTY ∨ m.byteAt i = metadata.TOMBSTONE)
      (slotTag_none_iff hs).symm

/-- Findability at one bucket: the stored key's probe reports this bucket
(spec invariant: every live key is reachable by probing). -/
def slotFind (m : Map K V) (i : Nat) : Prop :=
  match m.storage.getD i none with
  | some kv => m.probe_find kv.1 = some (.Full i)
  | none => True

theorem slotFind_none_iff {m : Map K V} {i : Nat} (hs : m.storage.getD i none = none) :
    slotFind m i ↔ True := by
  unfold slotFind
  rw [hs]

theorem slotFind_some_iff {m : Map K V} {i : Nat} {kv : K × V}
    (hs : m.storage.getD i none = some kv) :
    slotFind m i ↔ m.probe_find kv.1 = some (.Full i) := by
  unfold slotFind
  rw [hs]

instance slotFind.decidable (m : Map K V) (i : Nat) : Decidable (slotFind m i) :=
  match hs : m.storage.getD i none with
  | some kv =>
    decidable_of_iff (m.probe_find kv.1 = some (.Full i)) (slotFind_some_iff hs).symm
  | none => decidable_of_iff True (slotFind_none_iff hs).symm

/-- Well-formedness of a reachable positive-capacity table: power-of-two
shape with mirror (I1, I2, I5), item count = initialized-slot count,
metadata/storage agreement (I3, I4), and findability of every stored key. -/
structure WF (m : Map K V) : Prop where
  dims : Dims m
  cnt : m.n_items = m.storage.countP (fun s => s.isSome)
  sync : ∀ i, i < m.n_buckets → slotTag m i
  find : ∀ i, i < m.n_buckets → slotFind m i

/-- The strengthened invariant `resize`'s rehash loop maintains on the new
table: as `WF`, plus no tombstones (uninitialized means EMPTY) and
occupancy = item count. -/
structure RehashWF (m : Map K V) : Prop where
  dims : Dims m
  occ : m.n_occupied = m.n_items
  cnt : m.n_items = m.storage.countP (fun s => s.isSome)
  tombfree : ∀ i, i < m.n_buckets → m.storage.getD i none = none →
    m.byteAt i = metadata.EMPTY
  sync : ∀ i, i < m.n_buckets → slotTag m i
  find : ∀ i, i < m.n_buckets → slotFind m i

/-- A stored pair is reported by `get`. -/
theorem get_of_stored {m : Map K V} (hfind : ∀ i, i < m.n_buckets → slotFind m i)
    {i : Nat} {k : K} {v : V} (hi : i < m.n_buckets)
    (hs : m.storage.getD i none = some (k, v)) : m.get k = some (some v) := by
  have hf := (slotFind_some_iff hs).mp (hfind i hi)
  unfold Map.get
  simp only [hf, hs]

/-- Conversely, a `get` success names a stored pair. -/
theorem stored_of_get {m : Map K V} (hd : Dims m) {k : K} {v : V}
    (h : m.get k = some (some v)) :
    ∃ i, i < m.n_buckets ∧ m.storage.getD i none = some (k, v) := by
  unfold Map.get at h
  rcases hp : m.probe_find k with _ | pr
  · rw [hp] at h
    exact Option.noConfusion h
  rcases pr with ⟨i0, h2⟩ | idx
  · simp only [hp] at h
    exact absurd h (by simp)
  · simp only [hp] at h
    rcases hs : m.storage.getD idx none with _ | kv
    · simp only [hs] at h
      exact Option.noConfusion h
    · simp only [hs] at h
      have hv : kv.2 = v := by simpa using h
      have hchar := hp
      rw [probe_find_eq_findSome? hd k] at hchar
      obtain ⟨j, hjmem, hj⟩ := List.exists_of_findSome?_eq_some hchar
      rw [stepResult_eq_full_iff,
        probeCandidates_eq_some_iff hd (windowStart_lt hd.pos j)] at hj
      obtain ⟨l, hl, hb, hidx, hm, -⟩ := hj
      obtain ⟨v2, hv2⟩ := hm
      have hkv : kv = (k, v2) := by
        rw [hs] at hv2
        exact (Option.some.injEq _ _).mp hv2
      refine ⟨idx, by rw [hidx]; exact Nat.mod_lt _ hd.pos, ?_⟩
      rw [hs, hkv]
      have : v2 = v := by rw [hkv] at hv; exact hv
      rw [this]

/-- One bucket of `freshTable`: uninitialized, EMPTY. -/
theorem freshTable_slot (hasher : K → Nat) {cap i : Nat} (hi : i < cap) :
    (freshTable hasher cap : Map K V).storage.getD i none = none := by
  show (List.replicate cap (none : Option (K × V))).getD i none = none
  rw [List.getD_eq_getElem?_getD, List.getElem?_replicate_of_lt hi]
  rfl

theorem freshTable_byte (hasher : K → Nat) {cap i : Nat} (hi : i < cap + 16) :
    (freshTable hasher cap : Map K V).byteAt i = metadata.EMPTY := by
  show (List.replicate (cap + GROUP_SIZE) metadata.empty).getD i 0 = metadata.EMPTY
  rw [List.getD_eq_getElem?_getD,
    List.getElem?_replicate_of_lt (by rw [show GROUP_SIZE = 16 from rfl]; omega)]
  rfl

/-- The fresh table `resize` starts from satisfies the rehash invariant. -/
theorem rehashWF_fresh (hasher : K → Nat) {cap kk : Nat} (h4 : 4 ≤ kk) (h64 : kk ≤ 64)
    (hcap : cap = 2 ^ kk) : RehashWF (freshTable hasher cap : Map K V) := by
  have hd := fresh_dims (V := V) hasher h4 h64 hcap
  have hn : (freshTable hasher cap : Map K V).n_buckets = cap := freshTable_n_buckets hasher cap
  refine ⟨hd, rfl, ?_, ?_, ?_, ?_⟩
  · show (0 : Nat) = (List.replicate cap (none : Option (K × V))).countP _
    rw [eq_comm, List.countP_eq_zero]
    intro a ha
    rw [List.eq_of_mem_replicate ha]
    simp
  · intro i hi _
    exact freshTable_byte hasher (by rw [hn] at hi; omega)
  · intro i hi
    rw [slotTag_none_iff (freshTable_slot hasher (by rwa [hn] at hi))]
    exact Or.inl (freshTable_byte hasher (by rw [hn] at hi; omega))
  · intro i hi
    rw [slotFind_none_iff (freshTable_slot hasher (by rwa [hn] at hi))]
    trivial

end Map

/-! ## Inserting a fresh key into a rehash table -/

theorem from_h2_lt (x : Nat) : metadata.from_h2 x < 128 := by
  have h : x &&& 0x7F ≤ 0x7F := Nat.and_le_right
  show x &&& 0x7F < 128
  omega

namespace Map

variable {K V : Type} [DecidableEq K]

/-- A rehash table with room has an EMPTY in-range byte. -/
theorem exists_empty_of_room {m : Map K V} (hW : RehashWF m)
    (hroom : m.n_items < m.n_buckets) :
    ∃ i, i < m.n_buckets ∧ m.byteAt i = metadata.EMPTY := by
  by_contra hno
  push_neg at hno
  have hall : ∀ j, (hj : j < m.storage.length) → m.storage[j].isSome = true := by
    intro j hj
    have hgd : m.storage.getD j none = m.storage[j] := by
      rw [List.getD_eq_getElem?_getD, List.getElem?_eq_getElem hj]
      rfl
    rcases hs : m.storage.getD j none with _ | kv
    · exact absurd (hW.tombfree j hj hs) (hno j hj)
    · rw [hgd] at hs
      rw [hs]
      rfl
  have hcnt : m.storage.countP (fun s => s.isSome) = m.storage.length := by
    rw [List.countP_eq_length]
    intro a ha
    obtain ⟨j, hj, hja⟩ := List.getElem_of_mem ha
    rw [← hja]
    exact hall j hj
  have := hW.cnt
  rw [hcnt] at this
  exact absurd hroom (by rw [this]; exact Nat.lt_irrefl _)

/-- Probing an absent key in a rehash table with room reports an EMPTY
uninitialized bucket carrying the key's own `h2` tag. -/
theorem probe_fresh_empty {m : Map K V} (hW : RehashWF m) (k : K)
    (habsent : ∀ i, i < m.n_buckets → ¬ matchKeyAt m k i)
    (hroom : m.n_items < m.n_buckets) :
    ∃ idx, m.probe_find k = some (.Empty idx (h2Of m k)) ∧ idx < m.n_buckets ∧
      m.byteAt idx = metadata.EMPTY ∧ m.storage.getD idx none = none := by
  have hd := hW.dims
  obtain ⟨hsome, heq⟩ := probe_hits_within_group_count hd k
    (Or.inl (exists_empty_of_room hW hroom))
  rcases hr : m.probe_find k with _ | r
  · rw [hr] at heq
    rw [← heq] at hsome
    simp at hsome
  rcases r with ⟨idx, h2⟩ | j
  · -- Empty: extract the window facts
    have hchar := hr
    rw [probe_find_eq_findSome? hd k] at hchar
    obtain ⟨st, hstmem, hst⟩ := List.exists_of_findSome?_eq_some hchar
    rw [stepResult_eq_empty_iff] at hst
    obtain ⟨hcand, hh2, e, hfe, hidxe⟩ := hst
    rw [hd.fast_rem_eq] at hidxe
    have hw : windowStart (homeOf m k) m.n_buckets st < m.n_buckets :=
      windowStart_lt hd.pos st
    obtain ⟨he16, hbe, -⟩ := (group_first_empty_eq_some_iff hd hw).mp hfe
    have hidxlt : idx < m.n_buckets := by rw [hidxe]; exact Nat.mod_lt _ hd.pos
    have hbyteE : m.byteAt idx = metadata.EMPTY := by rw [hidxe]; exact hbe
    have hslotN : m.storage.getD idx none = none := by
      rcases hs : m.storage.getD idx none with _ | kv
      · rfl
      · have hsync := (slotTag_some_iff hs).mp (hW.sync idx hidxlt)
        have hlt := from_h2_lt (h2Of m kv.1)
        rw [hbyteE] at hsync
        exfalso
        have hE : metadata.EMPTY = 128 := rfl
        rw [← hsync, hE] at hlt
        exact absurd hlt (Nat.lt_irrefl _)
    subst hh2
    exact ⟨idx, rfl, hidxlt, hbyteE, hslotN⟩
  · -- Full: contradicts absence
    have hchar := hr
    rw [probe_find_eq_findSome? hd k] at hchar
    obtain ⟨st, -, hst⟩ := List.exists_of_findSome?_eq_some hchar
    rw [stepResult_eq_full_iff,
      probeCandidates_eq_some_iff hd (windowStart_lt hd.pos st)] at hst
    obtain ⟨l, -, -, hj, hm, -⟩ := hst
    exact absurd hm (habsent j (by rw [hj]; exact Nat.mod_lt _ hd.pos))

/-- A probe window that yielded nothing still yields nothing after an
EMPTY→FULL write elsewhere (it cannot contain the written bucket: that
bucket's byte was EMPTY). -/
theorem stepResult_none_stable {m m' : Map K V} (hd : Dims m) (hd' : Dims m')
    (hn : m'.n_buckets = m.n_buckets) {idx : Nat}
    (hbyteE : m.byteAt idx = metadata.EMPTY)
    (hbyte : ∀ j, j < m.n_buckets → j ≠ idx → m'.byteAt j = m.byteAt j)
    (hslot : ∀ j, j < m.n_buckets → j ≠ idx →
      m'.storage.getD j none = m.storage.getD j none)
    {k : K} {h2 w : Nat} (hw : w < m.n_buckets)
    (hnone : stepResult m k h2 w = none) : stepResult m' k h2 w = none := by
  have hnoE : ∀ l, l < 16 → m.byteAt ((w + l) % m.n_buckets) ≠ metadata.EMPTY := by
    rw [stepResult_eq_none_iff] at hnone
    exact (group_first_empty_eq_none_iff hd hw).mp hnone.2
  have hne : ∀ l, l < 16 → (w + l) % m.n_buckets ≠ idx := by
    intro l hl heqi
    exact hnoE l hl (by rw [heqi]; exact hbyteE)
  rw [stepResult_congr hd hd' hw hn
    (fun l hl => hbyte _ (Nat.mod_lt _ hd.pos) (hne l hl))
    (fun l hl => hslot _ (Nat.mod_lt _ hd.pos) (hne l hl))]
  exact hnone

/-- A probe window that reported `Full i` still reports `Full i` after an
EMPTY→FULL write at a different bucket whose new occupant does not match the
probed key. -/
theorem stepResult_full_stable {m m' : Map K V} (hd : Dims m) (hd' : Dims m')
    (hn : m'.n_buckets = m.n_buckets) {idx : Nat}
    (hbyte : ∀ j, j < m.n_buckets → j ≠ idx → m'.byteAt j = m.byteAt j)
    (hslot : ∀ j, j < m.n_buckets → j ≠ idx →
      m'.storage.getD j none = m.storage.getD j none)
    {k' : K} (hnm : ¬ matchKeyAt m' k' idx)
    {h2 w i : Nat} (hw : w < m.n_buckets) (hii : i ≠ idx)
    (hfull : stepResult m k' h2 w = some (.Full i)) :
    stepResult m' k' h2 w = some (.Full i) := by
  rw [stepResult_eq_full_iff] at hfull ⊢
  rw [probeCandidates_eq_some_iff hd hw] at hfull
  rw [probeCandidates_eq_some_iff hd' (by rw [hn]; exact hw), hn]
  obtain ⟨l, hl, hb, hi, hm, hmin⟩ := hfull
  have hplt : ∀ l0 : Nat, (w + l0) % m.n_buckets < m.n_buckets :=
    fun l0 => Nat.mod_lt _ hd.pos
  refine ⟨l, hl, ?_, hi, ?_, ?_⟩
  · rw [hbyte _ (hplt l) (by rw [← hi]; exact hii)]
    exact hb
  · rw [matchKeyAt_congr (hslot i (by rw [hi]; exact hplt l) hii)]
    exact hm
  · intro l' hl' hb'
    by_cases hpi : (w + l') % m.n_buckets = idx
    · rw [hpi]
      exact hnm
    · rw [matchKeyAt_congr (hslot _ (hplt l') hpi)]
      exact hmin l' hl' (by rw [← hbyte _ (hplt l') hpi]; exact hb')

/-- Probe stability: a key found at bucket `i` before an EMPTY→FULL write at
`idx ≠ i` (with a non-matching new occupant) is still found at `i`. -/
theorem probe_full_stable {m m' : Map K V} (hd : Dims m) (hd' : Dims m')
    (hh : m'.hasher = m.hasher) (hn : m'.n_buckets = m.n_buckets) {idx : Nat}
    (hbyteE : m.byteAt idx = metadata.EMPTY)
    (hbyte : ∀ j, j < m.n_buckets → j ≠ idx → m'.byteAt j = m.byteAt j)
    (hslot : ∀ j, j < m.n_buckets → j ≠ idx →
      m'.storage.getD j none = m.storage.getD j none)
    {k' : K} (hnm : ¬ matchKeyAt m' k' idx) {i : Nat} (hii : i ≠ idx)
    (hfind : m.probe_find k' = some (.Full i)) :
    m'.probe_find k' = some (.Full i) := by
  rw [probe_find_eq_findSome? hd k'] at hfind
  rw [probe_find_eq_findSome? hd' k', h2Of_congr hh hn, homeOf_congr hh hn, hn]
  exact findSome?_rel
    (fun j _ hfj => stepResult_none_stable hd hd' hn hbyteE hbyte hslot
      (windowStart_lt hd.pos j) hfj)
    (fun j _ hfj => stepResult_full_stable hd hd' hn hbyte hslot hnm
      (windowStart_lt hd.pos j) hii hfj)
    hfind

end Map

namespace Map

variable {K V : Type} [DecidableEq K]

/-- Specification of `_insert` on a key absent from a rehash table with
room: it succeeds returning `none`, fills a previously EMPTY bucket, bumps
both counters, leaves every other slot untouched, and re-establishes the
rehash invariant. -/
theorem _insert_fresh_spec {m : Map K V} (hW : RehashWF m) (k : K) (v : V)
    (habsent : ∀ i, i < m.n_buckets → ¬ matchKeyAt m k i)
    (hroom : m.n_items < m.n_buckets) :
    ∃ idx m', m._insert k v = some (m', none) ∧
      idx < m.n_buckets ∧ m.storage.getD idx none = none ∧
      m'.storage = m.storage.set idx (some (k, v)) ∧
      m'.n_items = m.n_items + 1 ∧ m'.n_occupied = m.n_occupied + 1 ∧
      m'.n_buckets = m.n_buckets ∧ m'.hasher = m.hasher ∧
      RehashWF m' := by
  have hd := hW.dims
  obtain ⟨idx, hp, hidx, hbyteE, hslotN⟩ := probe_fresh_empty hW k habsent hroom
  obtain ⟨m', hm'⟩ : ∃ m', m' =
      ({ hasher := m.hasher
         n_items := m.n_items + 1
         n_occupied := m.n_occupied + 1
         storage := m.storage.set idx (some (k, v))
         metadata := (m.set_metadata idx (metadata.from_h2 (h2Of m k))).metadata } :
        Map K V) := ⟨_, rfl⟩
  have hstor : m'.storage = m.storage.set idx (some (k, v)) := by rw [hm']
  have hn' : m'.n_buckets = m.n_buckets := by
    rw [hm']
    exact List.length_set _ _ _
  have hh' : m'.hasher = m.hasher := by rw [hm']
  have hitems : m'.n_items = m.n_items + 1 := by rw [hm']
  have hocc : m'.n_occupied = m.n_occupied + 1 := by rw [hm']
  have hbyteAt : ∀ j, j < m.n_buckets →
      m'.byteAt j = if j = idx then metadata.from_h2 (h2Of m k) else m.byteAt j := by
    intro j hj
    rw [hm']
    exact byteAt_set_metadata hd hidx _ hj
  have hslotAt : ∀ j, m'.storage.getD j none =
      if j = idx then some (k, v) else m.storage.getD j none := by
    intro j
    rw [hstor]
    by_cases hji : j = idx
    · subst hji
      rw [if_pos rfl]
      exact getD_set_eq hidx _ _
    · rw [if_neg hji]
      exact getD_set_ne (fun h => hji h.symm) _ _
  have hdm' : Dims m' := by
    rw [hm']
    exact (hd.set_metadata_preserved hidx (metadata.from_h2 (h2Of m k))).relabel
      (List.length_set _ _ _) m.hasher (m.n_items + 1) (m.n_occupied + 1)
  have hbyte' : ∀ p, p < m.n_buckets → p ≠ idx → m'.byteAt p = m.byteAt p := by
    intro p hp hpi
    rw [hbyteAt p hp, if_neg hpi]
  have hslot' : ∀ p, p < m.n_buckets → p ≠ idx →
      m'.storage.getD p none = m.storage.getD p none := by
    intro p _ hpi
    rw [hslotAt p, if_neg hpi]
  have hins : m._insert k v = some (m', none) := by
    rw [hm']
    unfold Map._insert
    rw [hp]
    rfl
  refine ⟨idx, m', hins, hidx, hslotN, hstor, hitems, hocc, hn', hh', ?_⟩
  refine ⟨hdm', ?_, ?_, ?_, ?_, ?_⟩
  · rw [hocc, hitems, hW.occ]
  · rw [hitems, hstor,
      countP_set_flip (fun s => s.isSome) none m.storage idx (some (k, v)) hidx
        (by rw [hslotN]; rfl) rfl, ← hW.cnt]
  · -- tombfree
    intro j hj hsj
    rw [hn'] at hj
    rw [hslotAt j] at hsj
    by_cases hji : j = idx
    · rw [if_pos hji] at hsj
      exact Option.noConfusion hsj
    · rw [if_neg hji] at hsj
      rw [hbyteAt j hj, if_neg hji]
      exact hW.tombfree j hj hsj
  · -- sync
    intro j hj
    rw [hn'] at hj
    by_cases hji : j = idx
    · subst hji
      rw [slotTag_some_iff (by rw [hslotAt j, if_pos rfl])]
      show m'.byteAt j = metadata.from_h2 (h2Of m' k)
      rw [hbyteAt j hj, if_pos rfl, h2Of_congr hh' hn']
    · have hsj := hslotAt j
      rw [if_neg hji] at hsj
      have hbj := hbyteAt j hj
      rw [if_neg hji] at hbj
      rcases hms : m.storage.getD j none with _ | kv
      · rw [slotTag_none_iff (by rw [hsj, hms]), hbj]
        exact (slotTag_none_iff hms).mp (hW.sync j hj)
      · rw [slotTag_some_iff (show m'.storage.getD j none = some kv by rw [hsj, hms]),
          hbj, h2Of_congr hh' hn']
        exact (slotTag_some_iff hms).mp (hW.sync j hj)
  · -- find
    intro j hj
    rw [hn'] at hj
    by_cases hji : j = idx
    · subst hji
      rw [slotFind_some_iff (by rw [hslotAt j, if_pos rfl])]
      show m'.probe_find k = some (.Full j)
      -- split the old probe at its first (and Empty-yielding) firing window
      have hfind0 := hp
      rw [probe_find_eq_findSome? hd k] at hfind0
      obtain ⟨l1, st, l2, hsplit, hpre1, hstep⟩ := findSome?_eq_some_split hfind0
      rw [stepResult_eq_empty_iff] at hstep
      obtain ⟨hcand, -, e, hfe, hidxe⟩ := hstep
      rw [hd.fast_rem_eq] at hidxe
      have hwlt : windowStart (homeOf m k) m.n_buckets st < m.n_buckets :=
        windowStart_lt hd.pos st
      obtain ⟨he16, -, -⟩ := (group_first_empty_eq_some_iff hd hwlt).mp hfe
      have hgst : stepResult m' k (h2Of m k)
          (windowStart (homeOf m k) m.n_buckets st) = some (.Full j) := by
        rw [stepResult_eq_full_iff,
          probeCandidates_eq_some_iff hdm' (by rw [hn']; exact hwlt), hn']
        refine ⟨e, he16, ?_, hidxe, ?_, ?_⟩
        · rw [← hidxe, hbyteAt j hj, if_pos rfl]
          exact from_h2_of_lt (h2Of_lt_128 m k)
        · exact ⟨v, by rw [hslotAt j, if_pos rfl]⟩
        · intro l' hl' hb'
          have hplt : (windowStart (homeOf m k) m.n_buckets st + l') % m.n_buckets <
              m.n_buckets := Nat.mod_lt _ hd.pos
          have hpi : (windowStart (homeOf m k) m.n_buckets st + l') % m.n_buckets ≠ j := by
            intro hcontra
            rw [hidxe] at hcontra
            have hmod : l' ≡ e [MOD m.n_buckets] :=
              Nat.ModEq.add_left_cancel' (windowStart (homeOf m k) m.n_buckets st) hcontra
            have h16n := hd.sixteen_le
            have heqmod : l' % m.n_buckets = e % m.n_buckets := hmod
            rw [Nat.mod_eq_of_lt (by omega), Nat.mod_eq_of_lt (by omega)] at heqmod
            omega
          rw [matchKeyAt_congr (hslot' _ hplt hpi)]
          exact habsent _ hplt
      rw [probe_find_eq_findSome? hdm' k, h2Of_congr hh' hn', homeOf_congr hh' hn', hn',
        hsplit]
      exact findSome?_fire
        (fun x hx => stepResult_none_stable hd hdm' hn' hbyteE hbyte' hslot'
          (windowStart_lt hd.pos x) (hpre1 x hx))
        hgst
    · rcases hms : m.storage.getD j none with _ | kv
      · rw [slotFind_none_iff (by rw [hslotAt j, if_neg hji, hms])]
        trivial
      · rw [slotFind_some_iff (show m'.storage.getD j none = some kv by
          rw [hslotAt j, if_neg hji, hms])]
        have hold := (slotFind_some_iff hms).mp (hW.find j hj)
        have hknm : ¬ matchKeyAt m' kv.1 idx := by
          rintro ⟨v0, hv0⟩
          rw [hslotAt idx, if_pos rfl] at hv0
          have hk : k = kv.1 := congrArg (fun o => (o.getD (k, v)).1) hv0
          exact habsent j hj ⟨kv.2, by rw [hms, hk]⟩
        exact probe_full_stable hd hdm' hh' hn' hbyteE hbyte' hslot' hknm hji hold

end Map

namespace Map

variable {K V : Type} [DecidableEq K]

/-- The per-bucket rehash loop of `resize`: folding `resizeMoveBucket` over
(full-bit, slot) pairs whose live slots hold pairwise-distinct keys absent
from the accumulator succeeds and inserts exactly the live pairs. -/
theorem rehash_fold :
    ∀ (l : List (Bool × Option (K × V))) (acc : Map K V),
      RehashWF acc →
      (∀ p ∈ l, p.1 = true → p.2.isSome = true) →
      (∀ p ∈ l, p.2.isSome = true → p.1 = true) →
      (∀ p ∈ l, ∀ kv, p.2 = some kv → ∀ i, i < acc.n_buckets → ¬ matchKeyAt acc kv.1 i) →
      List.Pairwise (fun p q => ∀ kv kw, p.2 = some kv → q.2 = some kw → kv.1 ≠ kw.1) l →
      acc.n_items + l.countP (fun p => p.1) ≤ acc.n_buckets →
      ∃ acc', l.foldlM resizeMoveBucket acc = some acc' ∧ RehashWF acc' ∧
        acc'.n_items = acc.n_items + l.countP (fun p => p.1) ∧
        acc'.n_buckets = acc.n_buckets ∧ acc'.hasher = acc.hasher ∧
        (∀ i, i < acc.n_buckets → ∀ kv, acc.storage.getD i none = some kv →
          ∃ j, j < acc.n_buckets ∧ acc'.storage.getD j none = some kv) ∧
        (∀ p ∈ l, ∀ kv, p.2 = some kv →
          ∃ j, j < acc.n_buckets ∧ acc'.storage.getD j none = some kv) := by
  intro l
  induction l with
  | nil =>
    intro acc hW _ _ _ _ _
    refine ⟨acc, by simp, hW, by simp, rfl, rfl, ?_, ?_⟩
    · intro i hi kv hkv
      exact ⟨i, hi, hkv⟩
    · intro p hp
      simp at hp
  | cons p l ih =>
    intro acc hW hA hB hC hD hE
    rcases p with ⟨b, sl⟩
    rw [List.foldlM_cons]
    by_cases hb : b = true
    · subst hb
      have hsl : sl.isSome = true := hA (true, sl) (by simp) rfl
      rcases hsl2 : sl with _ | kv
      · rw [hsl2] at hsl
        simp at hsl
      subst hsl2
      have hcnt : ((true, some kv) :: l).countP (fun p => p.1) =
          l.countP (fun p => p.1) + 1 := by
        rw [List.countP_cons]
        simp
      have hroom : acc.n_items < acc.n_buckets := by
        rw [hcnt] at hE
        omega
      have habs := hC (true, some kv) (by simp) kv rfl
      obtain ⟨idx, m', hins, hidxlt, hidxnone, hstor, hitems, hocc, hnb, hhash, hW'⟩ :=
        _insert_fresh_spec hW kv.1 kv.2 habs hroom
      have hstep : resizeMoveBucket acc (true, some kv) = some m' := by
        show (acc._insert kv.1 kv.2).map Prod.fst = some m'
        rw [hins]
        rfl
      rw [hstep]
      have hhead := (List.pairwise_cons.mp hD).1
      have hC' : ∀ q ∈ l, ∀ kw, q.2 = some kw →
          ∀ i, i < m'.n_buckets → ¬ matchKeyAt m' kw.1 i := by
        intro q hq kw hkw i hi
        rw [hnb] at hi
        rintro ⟨v0, hv0⟩
        rw [hstor] at hv0
        by_cases hii : i = idx
        · subst hii
          rw [getD_set_eq hidxlt] at hv0
          have hkk : kv.1 = kw.1 := congrArg (fun o => (o.getD (kw.1, v0)).1) hv0
          exact hhead q hq kv kw rfl hkw hkk
        · rw [getD_set_ne (fun h => hii h.symm)] at hv0
          exact hC q (by simp [hq]) kw hkw i hi ⟨v0, hv0⟩
      have hE' : m'.n_items + l.countP (fun p => p.1) ≤ m'.n_buckets := by
        rw [hitems, hnb]
        rw [hcnt] at hE
        omega
      obtain ⟨acc', hfold, hW2, hcount, hnb2, hh2, hpres, hlist⟩ :=
        ih m' hW' (fun q hq => hA q (by simp [hq])) (fun q hq => hB q (by simp [hq]))
          hC' (List.pairwise_cons.mp hD).2 hE'
      refine ⟨acc', hfold, hW2, ?_, ?_, ?_, ?_, ?_⟩
      · rw [hcount, hitems, hcnt]
        omega
      · rw [hnb2, hnb]
      · rw [hh2, hhash]
      · intro i hi kw hkw
        have hii : i ≠ idx := by
          intro h
          subst h
          rw [hidxnone] at hkw
          exact Option.noConfusion hkw
        have hm1 : m'.storage.getD i none = some kw := by
          rw [hstor, getD_set_ne (fun h => hii h.symm)]
          exact hkw
        obtain ⟨j, hj, hjs⟩ := hpres i (by rw [hnb]; exact hi) kw hm1
        rw [hnb] at hj
        exact ⟨j, hj, hjs⟩
      · intro q hq kw hkw
        rcases List.mem_cons.mp hq with rfl | hq2
        · have hkveq : kv = kw := by simpa using hkw
          have hm1 : m'.storage.getD idx none = some kw := by
            rw [hstor, getD_set_eq hidxlt, ← hkveq]
          obtain ⟨j, hj, hjs⟩ := hpres idx (by rw [hnb]; exact hidxlt) kw hm1
          rw [hnb] at hj
          exact ⟨j, hj, hjs⟩
        · obtain ⟨j, hj, hjs⟩ := hlist q hq2 kw hkw
          rw [hnb] at hj
          exact ⟨j, hj, hjs⟩
    · have hb' : b = false := by
        revert hb
        cases b <;> simp
      subst hb'
      have hstep : resizeMoveBucket acc (false, sl) = some acc := rfl
      rw [hstep]
      have hcnt : ((false, sl) :: l).countP (fun p => p.1) = l.countP (fun p => p.1) := by
        rw [List.countP_cons]
        simp
      obtain ⟨acc', hfold, hW2, hcount, hnb2, hh2, hpres, hlist⟩ :=
        ih acc hW (fun q hq => hA q (by simp [hq])) (fun q hq => hB q (by simp [hq]))
          (fun q hq => hC q (by simp [hq])) (List.pairwise_cons.mp hD).2
          (by rw [hcnt] at hE; exact hE)
      refine ⟨acc', hfold, hW2, by rw [hcount, hcnt], hnb2, hh2, hpres, ?_⟩
      intro q hq kw hkw
      rcases List.mem_cons.mp hq with rfl | hq2
      · have : ((false, sl).2).isSome = true := by
          rw [show (false, sl).2 = sl from rfl] at hkw ⊢
          rw [hkw]
          rfl
        have := hB (false, sl) (by simp) this
        exact absurd this (by simp)
      · exact hlist q hq2 kw hkw

end Map

/-! ## Flattening the chunked rehash iteration -/

theorem getD_eq_getElem' {α : Type} (l : List α) {i : Nat} (hi : i < l.length) (d : α) :
    l.getD i d = l[i] := by
  rw [List.getD_eq_getElem?_getD, List.getElem?_eq_getElem hi]
  rfl

/-- The full-bit of a FULL byte. -/
theorem fullbit_of_lt {x : Nat} (h : x < 128) : ((x >>> 7) == 0) = true := by
  have hs : x >>> 7 = x / 2 ^ 7 := Nat.shiftRight_eq_div_pow x 7
  rw [hs, Nat.div_eq_of_lt (by omega)]
  rfl

/-- The full-bit of a non-FULL byte (EMPTY or TOMBSTONE). -/
theorem fullbit_of_ge {x : Nat} (hge : 128 ≤ x) : ((x >>> 7) == 0) = false := by
  have hs : x >>> 7 = x / 2 ^ 7 := Nat.shiftRight_eq_div_pow x 7
  have hpos : 0 < x / 2 ^ 7 := Nat.div_pos (by omega) (by omega)
  rw [hs]
  simp only [beq_eq_false_iff_ne, ne_eq]
  omega

/-- A fold of per-chunk folds is a fold over the flattened chunks. -/
theorem foldlM_chunks {α β γ : Type} (g : β → α → Option β) (h : γ → List α)
    (f : β → γ → Option β) (hf : ∀ acc c, f acc c = (h c).foldlM g acc) :
    ∀ (l : List γ) (b : β), l.foldlM f b = ((l.map h).flatten).foldlM g b := by
  intro l
  induction l with
  | nil => intro b; rfl
  | cons c l ih =>
    intro b
    rw [List.foldlM_cons, List.map_cons, List.flatten_cons, List.foldlM_append, hf]
    rcases hr : (h c).foldlM g b with _ | b1
    · rfl
    · show l.foldlM f b1 = ((l.map h).flatten).foldlM g b1
      exact ih b1

/-- Flattening the zipped 16-chunks of the metadata (mirror tail included)
and storage arrays yields the bucketwise (full-bit, slot) pair list. -/
theorem chunks_zip_flatten {A B : Type} (f : A → Bool) :
    ∀ (q : Nat) (md : List A) (st : List B),
      st.length = 16 * q → md.length = st.length + 16 →
      (((Map.chunksExact16 md).zip (Map.chunksExact16 st)).map
          (fun c => (c.1.map f).zip c.2)).flatten
        = (md.map f).zip st := by
  intro q
  induction q with
  | zero =>
    intro md st hst hmd
    have hst0 : st = [] := List.length_eq_zero.mp (by omega)
    subst hst0
    rw [show Map.chunksExact16 ([] : List B) = [] from rfl]
    rw [List.zip_nil_right, List.map_nil, List.flatten_nil, List.zip_nil_right]
  | succ q ihq =>
    intro md st hst hmd
    rw [Map.chunksExact16_unfold md, Map.chunksExact16_unfold st,
      if_neg (by omega), if_neg (by omega)]
    rw [List.zip_cons_cons, List.map_cons, List.flatten_cons,
      ihq (md.drop 16) (st.drop 16) (by rw [List.length_drop]; omega)
        (by rw [List.length_drop, List.length_drop]; omega)]
    have hsplit : (md.map f).zip st =
        (((md.take 16).map f) ++ ((md.drop 16).map f)).zip
          ((st.take 16) ++ (st.drop 16)) := by
      rw [← List.map_append, List.take_append_drop, List.take_append_drop]
    rw [hsplit, List.zip_append]
    rw [List.length_map, List.length_take, List.length_take]
    omega

namespace Map

variable {K V : Type} [DecidableEq K]

/-- The bucketwise (full-bit, slot) pair list of a table. -/
def fullsFlat (m : Map K V) : List (Bool × Option (K × V)) :=
  (m.metadata.map (fun b => (b >>> 7) == 0)).zip m.storage

theorem fullsFlat_length {m : Map K V} (hd : Dims m) :
    (fullsFlat m).length = m.n_buckets := by
  unfold fullsFlat
  rw [List.length_zip, List.length_map, hd.mlen]
  show min (m.n_buckets + GROUP_SIZE) m.n_buckets = m.n_buckets
  exact Nat.min_eq_right (Nat.le_add_right _ _)

/-- Element `i` of the pair list, in `getD` form. -/
theorem fullsFlat_getElem {m : Map K V} (hd : Dims m) {i : Nat} (hi : i < m.n_buckets) :
    (fullsFlat m).getD i (false, none) =
      (((m.byteAt i) >>> 7) == 0, m.storage.getD i none) := by
  have hG : GROUP_SIZE = 16 := rfl
  have hmlen := hd.mlen
  have hmd : i < m.metadata.length := by omega
  have hmap : i < (m.metadata.map (fun b => (b >>> 7) == 0)).length := by
    rw [List.length_map]
    omega
  have hst : i < m.storage.length := hi
  have hL : i < (fullsFlat m).length := by rw [fullsFlat_length hd]; exact hi
  rw [getD_eq_getElem' _ hL]
  unfold fullsFlat
  rw [List.getElem_zip, List.getElem_map]
  rw [show m.byteAt i = m.metadata.getD i 0 from rfl, getD_eq_getElem' _ hmd,
    getD_eq_getElem' _ hst]

/-- Membership in the pair list names a bucket. -/
theorem fullsFlat_mem {m : Map K V} (hd : Dims m) {p : Bool × Option (K × V)}
    (hp : p ∈ fullsFlat m) :
    ∃ i, i < m.n_buckets ∧ p = (((m.byteAt i) >>> 7) == 0, m.storage.getD i none) := by
  obtain ⟨i, hi, hL⟩ := List.getElem_of_mem hp
  have hi' : i < m.n_buckets := by rw [← fullsFlat_length hd]; exact hi
  refine ⟨i, hi', ?_⟩
  rw [← hL, ← getD_eq_getElem' _ hi, fullsFlat_getElem hd hi']

end Map

namespace Map

variable {K V : Type} [DecidableEq K]

/-- `resize` of a well-formed positive-capacity table: it succeeds, doubles
the bucket count, keeps the item count, and keeps every live key's value;
the result satisfies the tombstone-free rehash invariant (in particular
`n_occupied = n_items`). -/
theorem resize_spec_pos {m : Map K V} (hW : WF m) (hsmall : m.n_buckets ≤ 2 ^ 63) :
    ∃ m', m.resize = some m' ∧ RehashWF m' ∧
      m'.n_buckets = m.n_buckets * 2 ∧ m'.n_items = m.n_items ∧
      (∀ k v, m.get k = some (some v) → m'.get k = some (some v)) := by
  have hd := hW.dims
  obtain ⟨kk, h4, h64, hn⟩ := hd.cap_pow
  have hne : m.n_buckets ≠ 0 := by rw [hn]; positivity
  have h64' : kk + 1 ≤ 64 := by
    by_contra hgt
    have h64le : (64 : Nat) ≤ kk := by omega
    have hup : (2 : Nat) ^ 64 ≤ 2 ^ kk := Nat.pow_le_pow_right (by norm_num) h64le
    rw [hn] at hsmall
    have hd63 : (2 : Nat) ^ 63 < 2 ^ 64 := by norm_num
    omega
  have hcap2 : m.n_buckets * 2 = 2 ^ (kk + 1) := by rw [hn, pow_succ]
  have hWf : RehashWF (freshTable m.hasher (m.n_buckets * 2) : Map K V) :=
    rehashWF_fresh m.hasher (by omega) h64' hcap2
  have hfn : (freshTable m.hasher (m.n_buckets * 2) : Map K V).n_buckets =
      m.n_buckets * 2 := freshTable_n_buckets _ _
  have hA : ∀ p ∈ fullsFlat m, p.1 = true → p.2.isSome = true := by
    intro p hp h1
    obtain ⟨i, hi, rfl⟩ := fullsFlat_mem hd hp
    rcases hs : m.storage.getD i none with _ | kv
    · have hsync := (slotTag_none_iff hs).mp (hW.sync i hi)
      have hge : 128 ≤ m.byteAt i := by
        rcases hsync with hE | hT
        · rw [hE]; decide
        · rw [hT]; decide
      rw [show ((m.byteAt i >>> 7 == 0, m.storage.getD i none).1) =
        (m.byteAt i >>> 7 == 0) from rfl, fullbit_of_ge hge] at h1
      exact Bool.noConfusion h1
    · rfl
  have hB : ∀ p ∈ fullsFlat m, p.2.isSome = true → p.1 = true := by
    intro p hp h2
    obtain ⟨i, hi, rfl⟩ := fullsFlat_mem hd hp
    rcases hs : m.storage.getD i none with _ | kv
    · rw [show ((m.byteAt i >>> 7 == 0, m.storage.getD i none).2) =
        m.storage.getD i none from rfl, hs] at h2
      exact Bool.noConfusion h2
    · have hsync := (slotTag_some_iff hs).mp (hW.sync i hi)
      have hlt : m.byteAt i < 128 := by rw [hsync]; exact from_h2_lt _
      show (m.byteAt i >>> 7 == 0) = true
      exact fullbit_of_lt hlt
  have hC : ∀ p ∈ fullsFlat m, ∀ kv, p.2 = some kv →
      ∀ i, i < (freshTable m.hasher (m.n_buckets * 2) : Map K V).n_buckets →
        ¬ matchKeyAt (freshTable m.hasher (m.n_buckets * 2) : Map K V) kv.1 i := by
    intro p hp kv hkv i hi
    rintro ⟨v0, hv0⟩
    rw [hfn] at hi
    rw [freshTable_slot m.hasher hi] at hv0
    exact Option.noConfusion hv0
  have hD : List.Pairwise
      (fun p q => ∀ kv kw, p.2 = some kv → q.2 = some kw → kv.1 ≠ kw.1) (fullsFlat m) := by
    rw [List.pairwise_iff_getElem]
    intro i j hi hj hij kv kw hkv hkw
    have hin : i < m.n_buckets := by rw [← fullsFlat_length hd]; exact hi
    have hjn : j < m.n_buckets := by rw [← fullsFlat_length hd]; exact hj
    rw [← getD_eq_getElem' (fullsFlat m) hi (false, none),
      fullsFlat_getElem hd hin] at hkv
    rw [← getD_eq_getElem' (fullsFlat m) hj (false, none),
      fullsFlat_getElem hd hjn] at hkw
    have hkv2 : m.storage.getD i none = some kv := hkv
    have hkw2 : m.storage.getD j none = some kw := hkw
    intro heq
    have hfi := (slotFind_some_iff hkv2).mp (hW.find i hin)
    have hfj := (slotFind_some_iff hkw2).mp (hW.find j hjn)
    rw [heq] at hfi
    rw [hfi] at hfj
    have : i = j := by simpa using hfj
    omega
  have hE : (freshTable m.hasher (m.n_buckets * 2) : Map K V).n_items +
      (fullsFlat m).countP (fun p => p.1) ≤
      (freshTable m.hasher (m.n_buckets * 2) : Map K V).n_buckets := by
    have h1 : (fullsFlat m).countP (fun p => p.1) ≤ (fullsFlat m).length :=
      List.countP_le_length _
    rw [fullsFlat_length hd] at h1
    rw [hfn]
    show 0 + (fullsFlat m).countP (fun p => p.1) ≤ m.n_buckets * 2
    omega
  obtain ⟨acc', hfold, hW2, hcount, hnb2, hh2, hpres, hlist⟩ :=
    rehash_fold (fullsFlat m) (freshTable m.hasher (m.n_buckets * 2)) hWf hA hB hC hD hE
  have hstlen : m.storage.length = 16 * 2 ^ (kk - 4) := by
    have h16 : (16 : Nat) * 2 ^ (kk - 4) = 2 ^ kk := by
      rw [show (16 : Nat) = 2 ^ 4 from rfl, ← pow_add]
      congr 1
      omega
    rw [h16]
    exact hn
  have hmdlen : m.metadata.length = m.storage.length + 16 := by
    rw [hd.mlen]
    rfl
  have hres : m.resize = (fullsFlat m).foldlM resizeMoveBucket
      (freshTable m.hasher (m.n_buckets * 2)) := by
    unfold Map.resize
    rw [if_neg hne]
    rw [foldlM_chunks resizeMoveBucket
      (fun c : List Nat × List (Option (K × V)) => (c.1.map (fun b => (b >>> 7) == 0)).zip c.2)
      resizeMoveChunk (fun acc c => rfl)]
    rw [chunks_zip_flatten (fun b => (b >>> 7) == 0) (2 ^ (kk - 4)) m.metadata m.storage
      hstlen hmdlen]
    rfl
  refine ⟨acc', by rw [hres]; exact hfold, hW2, by rw [hnb2, hfn], ?_, ?_⟩
  · rw [hcount]
    show 0 + (fullsFlat m).countP (fun p => p.1) = m.n_items
    rw [Nat.zero_add, hW.cnt]
    refine countP_congr_pointwise _ _ (false, none) none (fullsFlat m) m.storage ?_ ?_
    · rw [fullsFlat_length hd]
      rfl
    · intro i hiL
      rw [fullsFlat_length hd] at hiL
      rw [fullsFlat_getElem hd hiL]
      show ((m.byteAt i >>> 7) == 0) = (m.storage.getD i none).isSome
      rcases hs : m.storage.getD i none with _ | kv
      · have hsync := (slotTag_none_iff hs).mp (hW.sync i hiL)
        have hge : 128 ≤ m.byteAt i := by
          rcases hsync with hE | hT
          · rw [hE]; decide
          · rw [hT]; decide
        rw [fullbit_of_ge hge]
        rfl
      · have hsync := (slotTag_some_iff hs).mp (hW.sync i hiL)
        have hlt : m.byteAt i < 128 := by rw [hsync]; exact from_h2_lt _
        rw [fullbit_of_lt hlt]
        rfl
  · intro k v hget
    obtain ⟨i, hi, hsi⟩ := stored_of_get hd hget
    have hiL : i < (fullsFlat m).length := by rw [fullsFlat_length hd]; exact hi
    have hmem : (fullsFlat m).getD i (false, none) ∈ fullsFlat m := by
      rw [getD_eq_getElem' _ hiL]
      exact List.getElem_mem hiL
    have hp2 : ((fullsFlat m).getD i (false, none)).2 = some (k, v) := by
      rw [fullsFlat_getElem hd hi]
      exact hsi
    obtain ⟨j, hj, hjs⟩ := hlist _ hmem (k, v) hp2
    have hjlt : j < acc'.n_buckets := by rw [hnb2]; exact hj
    exact get_of_stored hW2.find hjlt hjs

end Map

/-- **C7.** `resize` (fifth.rs 271-316) sets the capacity to 16 when the old
capacity was 0 and to exactly twice the old capacity otherwise; on a
well-formed table it succeeds, `len()` is unchanged, every live key still
maps to its previous value, and afterwards `n_occupied = n_items` (every
old FULL slot is rehash-inserted, tombstones are discarded).  Hypotheses:
the old table is well-formed (`WF`: power-of-two shape, mirror, counts,
metadata/storage agreement, findability) or is the canonical capacity-0
table with no items; the old capacity fits a `usize` after doubling. -/
theorem c7_resize_correct {K V : Type} [DecidableEq K] (m : Map K V)
    (h : Map.WF m ∨ (ZeroShape m ∧ m.n_items = 0)) (hsmall : m.n_buckets ≤ 2 ^ 63) :
    ∃ m', m.resize = some m' ∧
      m'.n_buckets = (if m.n_buckets = 0 then 16 else 2 * m.n_buckets) ∧
      m'.len = m.len ∧ m'.n_occupied = m'.n_items ∧
      (∀ k v, m.get k = some (some v) → m'.get k = some (some v)) := by
  rcases h with hW | ⟨hz, hz0⟩
  · obtain ⟨m', hres, hW2, hnb, hitems, hget⟩ := Map.resize_spec_pos hW hsmall
    have hne : m.n_buckets ≠ 0 := by
      have := hW.dims.pos
      omega
    refine ⟨m', hres, ?_, hitems, hW2.occ, hget⟩
    rw [hnb, if_neg hne]
    ring
  · have hn0 : m.n_buckets = 0 := Map.zero_n_buckets hz
    have hres : m.resize = some (Map.freshTable m.hasher 16) := by
      unfold Map.resize
      rw [if_pos hn0, hz.1, hz.2]
      rfl
    refine ⟨Map.freshTable m.hasher 16, hres, ?_, ?_, rfl, ?_⟩
    · rw [Map.freshTable_n_buckets, if_pos hn0]
    · show (0 : Nat) = m.n_items
      rw [hz0]
    · intro k v hget
      exfalso
      have hpf : m.probe_find k = none := by
        unfold Map.probe_find
        rw [hn0]
        rfl
      unfold Map.get at hget
      rw [hpf] at hget
      exact Option.noConfusion hget

/-- `wmap32` is well-formed: it holds the single pair `(0, 42)` at its home
bucket 0 with the matching metadata tag. -/
theorem wmap32_WF : Map.WF wmap32 :=
  ⟨wmap32_dims, by decide, by decide, by decide⟩

/-- Witness for `c7_resize_correct` at the concrete one-item 32-bucket
table `wmap32`. -/
theorem c7_resize_correct_witness :
    ∃ m', wmap32.resize = some m' ∧
      m'.n_buckets = (if wmap32.n_buckets = 0 then 16 else 2 * wmap32.n_buckets) ∧
      m'.len = wmap32.len ∧ m'.n_occupied = m'.n_items ∧
      (∀ k v, wmap32.get k = some (some v) → m'.get k = some (some v)) :=
  c7_resize_correct wmap32 (Or.inl wmap32_WF) (by decide)

/-! ## The tombstone-or-empty decision and probe windows -/

theorem getD_reverse_16 {mask : List Bool} (hlen : mask.length = 16) {j : Nat} (hj : j < 16) :
    mask.reverse.getD j false = mask.getD (15 - j) false := by
  have hidx : mask.length - 1 - j = 15 - j := by omega
  rw [List.getD_eq_getElem?_getD, List.getD_eq_getElem?_getD,
    List.getElem?_reverse (by rw [hlen]; exact hj), hidx]

namespace Map

variable {K V : Type} [DecidableEq K]

/-- The last-empty scan of a group: `some e` means lane `e` is the last lane
holding the EMPTY byte. -/
theorem group_last_empty_eq_some_iff {m : Map K V} (hd : Dims m) {w e : Nat}
    (hw : w < m.n_buckets) :
    sse.find_last ((sse.Group.from_slice (m.metadata.drop w)).to_empties) = some e ↔
      e < 16 ∧ m.byteAt ((w + e) % m.n_buckets) = metadata.EMPTY ∧
        ∀ l, e < l → l < 16 → m.byteAt ((w + l) % m.n_buckets) ≠ metadata.EMPTY := by
  have hmask : ∀ l, l < 16 →
      ((sse.Group.from_slice (m.metadata.drop w)).to_empties).getD l false =
        (m.byteAt ((w + l) % m.n_buckets) == metadata.EMPTY) := by
    intro l hl
    unfold sse.Group.to_empties
    rw [getD_map_of_lt _ _ (by rw [group_length hd hw]; exact hl) false 0,
      lane_byte hd hw hl]
  have hlen : ((sse.Group.from_slice (m.metadata.drop w)).to_empties).length = 16 := by
    unfold sse.Group.to_empties
    rw [List.length_map, group_length hd hw]
  unfold sse.find_last
  constructor
  · intro h
    rw [Option.map_eq_some'] at h
    obtain ⟨j, hj, hje⟩ := h
    rw [find_firstAux_eq_some_iff] at hj
    obtain ⟨l, hl, hj0, hset, hmin⟩ := hj
    rw [List.length_reverse, hlen] at hl
    have hjl : j = l := by omega
    rw [hjl] at hje
    rw [getD_reverse_16 hlen hl, hmask (15 - l) (by omega)] at hset
    refine ⟨by omega, ?_, ?_⟩
    · rw [← hje]
      simpa using hset
    · intro l2 hgt hl2
      have hmin2 := hmin (15 - l2) (by omega)
      rw [getD_reverse_16 hlen (by omega), hmask (15 - (15 - l2)) (by omega),
        show 15 - (15 - l2) = l2 by omega] at hmin2
      simpa using hmin2
  · rintro ⟨he, hb, hmax⟩
    have hfa : sse.find_firstAux
        ((sse.Group.from_slice (m.metadata.drop w)).to_empties).reverse 0 =
          some (15 - e) := by
      rw [find_firstAux_eq_some_iff]
      refine ⟨15 - e, by rw [List.length_reverse, hlen]; omega, by omega, ?_, ?_⟩
      · rw [getD_reverse_16 hlen (by omega), show 15 - (15 - e) = e by omega, hmask e he]
        simpa using hb
      · intro l' hl'
        rw [getD_reverse_16 hlen (by omega), hmask (15 - l') (by omega)]
        simp only [beq_eq_false_iff_ne, ne_eq]
        exact hmax (15 - l') (by omega) (by omega)
    rw [hfa]
    show some (15 - (15 - e)) = some e
    rw [show 15 - (15 - e) = e by omega]

/-- `decide_tombstone_or_empty` at capacity ≠ 16, zeta-expanded. -/
theorem decide_eq (m : Map K V) (index : Nat) (hne16 : m.n_buckets ≠ GROUP_SIZE) :
    m.decide_tombstone_or_empty index =
      (if ((sse.find_first ((sse.Group.from_slice
              (m.metadata.drop index)).to_empties)).getD GROUP_SIZE + GROUP_SIZE) -
            ((sse.find_last ((sse.Group.from_slice (m.metadata.drop
              (fast_rem (wrappingSub64 index GROUP_SIZE) m.n_buckets))).to_empties)).getD 0)
          < GROUP_SIZE
       then metadata.empty else metadata.tombstone) := by
  unfold decide_tombstone_or_empty
  rw [if_neg hne16]

/-- When the decision (capacity > 16) is EMPTY, every 16-lane window
covering the freed bucket also covers a different bucket whose byte is
already EMPTY. -/
theorem empty_decision_straddle {m : Map K V} (hd : Dims m) {idx : Nat}
    (hidx : idx < m.n_buckets) (hne16 : m.n_buckets ≠ 16)
    (hdec : m.decide_tombstone_or_empty idx = metadata.empty)
    (hbidx : m.byteAt idx ≠ metadata.EMPTY) :
    ∀ w, w < m.n_buckets → ∀ d, d < 16 → (w + d) % m.n_buckets = idx →
      ∃ l, l < 16 ∧ (w + l) % m.n_buckets ≠ idx ∧
        m.byteAt ((w + l) % m.n_buckets) = metadata.EMPTY := by
  have h16le := hd.sixteen_le
  have h32le : 32 ≤ m.n_buckets := by
    obtain ⟨kk, h4, -, hn⟩ := hd.cap_pow
    rcases Nat.lt_or_ge kk 5 with h5 | h5
    · exfalso
      apply hne16
      rw [hn]
      have : kk = 4 := by omega
      rw [this]
      norm_num
    · rw [hn]
      calc (32 : Nat) = 2 ^ 5 := rfl
      _ ≤ 2 ^ kk := Nat.pow_le_pow_right (by norm_num) h5
  rw [decide_eq m idx hne16, hd.fast_rem_wrapping] at hdec
  have hprevlt : (idx + (m.n_buckets - 16)) % m.n_buckets < m.n_buckets :=
    Nat.mod_lt _ hd.pos
  rcases hne : sse.find_first ((sse.Group.from_slice (m.metadata.drop idx)).to_empties)
    with _ | ne
  · rcases hle : sse.find_last ((sse.Group.from_slice (m.metadata.drop
        ((idx + (m.n_buckets - 16)) % m.n_buckets))).to_empties) with _ | le
    · rw [hne, hle] at hdec
      simp only [Option.getD_none] at hdec
      rw [if_neg (by norm_num [GROUP_SIZE])] at hdec
      exact absurd hdec (by decide)
    · obtain ⟨hle16, -, -⟩ := (group_last_empty_eq_some_iff hd hprevlt).mp hle
      rw [hne, hle] at hdec
      simp only [Option.getD_none, Option.getD_some] at hdec
      rw [show (GROUP_SIZE : Nat) = 16 from rfl] at hdec
      rw [if_neg (by omega)] at hdec
      exact absurd hdec (by decide)
  · rcases hle : sse.find_last ((sse.Group.from_slice (m.metadata.drop
        ((idx + (m.n_buckets - 16)) % m.n_buckets))).to_empties) with _ | le
    · rw [hne, hle] at hdec
      simp only [Option.getD_none, Option.getD_some] at hdec
      rw [show (GROUP_SIZE : Nat) = 16 from rfl] at hdec
      rw [if_neg (by omega)] at hdec
      exact absurd hdec (by decide)
    · obtain ⟨hne16', hbne, -⟩ := (group_first_empty_eq_some_iff hd hidx).mp hne
      obtain ⟨hle16, hble, -⟩ := (group_last_empty_eq_some_iff hd hprevlt).mp hle
      rw [hne, hle] at hdec
      simp only [Option.getD_none, Option.getD_some] at hdec
      rw [show (GROUP_SIZE : Nat) = 16 from rfl] at hdec
      by_cases hcond : ne + 16 - le < 16
      · have hlt : ne < le := by omega
        have hne1 : 1 ≤ ne := by
          by_contra h0
          have : ne = 0 := by omega
          rw [this, Nat.add_zero, Nat.mod_eq_of_lt hidx] at hbne
          exact hbidx hbne
        intro w hw d hd16 hwd
        by_cases hcase : d + ne < 16
        · refine ⟨d + ne, hcase, ?_, ?_⟩
          · intro hcontra
            have hpos : (w + (d + ne)) % m.n_buckets = (idx + ne) % m.n_buckets := by
              have hmodeq : (w + d) % m.n_buckets = idx % m.n_buckets := by
                rw [Nat.mod_eq_of_lt hidx]
                exact hwd
              calc (w + (d + ne)) % m.n_buckets = ((w + d) + ne) % m.n_buckets := by
                    congr 1
                    omega
              _ = ((w + d) % m.n_buckets + ne) % m.n_buckets := (Nat.mod_add_mod _ _ _).symm
              _ = (idx % m.n_buckets + ne) % m.n_buckets := by rw [hmodeq]
              _ = (idx + ne) % m.n_buckets := Nat.mod_add_mod _ _ _
            rw [hpos] at hcontra
            have hzero : ne % m.n_buckets = 0 % m.n_buckets :=
              Nat.ModEq.add_left_cancel' idx (by
                show (idx + ne) % m.n_buckets = (idx + 0) % m.n_buckets
                rw [Nat.add_zero, Nat.mod_eq_of_lt hidx]
                exact hcontra)
            rw [Nat.mod_eq_of_lt (by omega), Nat.zero_mod] at hzero
            omega
          · have hpos : (w + (d + ne)) % m.n_buckets = (idx + ne) % m.n_buckets := by
              have hmodeq : (w + d) % m.n_buckets = idx % m.n_buckets := by
                rw [Nat.mod_eq_of_lt hidx]
                exact hwd
              calc (w + (d + ne)) % m.n_buckets = ((w + d) + ne) % m.n_buckets := by
                    congr 1
                    omega
              _ = ((w + d) % m.n_buckets + ne) % m.n_buckets := (Nat.mod_add_mod _ _ _).symm
              _ = (idx % m.n_buckets + ne) % m.n_buckets := by rw [hmodeq]
              _ = (idx + ne) % m.n_buckets := Nat.mod_add_mod _ _ _
            rw [hpos]
            exact hbne
        · have hle2 : 2 ≤ le := by omega
          have hl1 : 1 ≤ d + le - 16 := by omega
          have hl16 : d + le - 16 < 16 := by omega
          have hpos : (w + (d + le - 16)) % m.n_buckets =
              ((idx + (m.n_buckets - 16)) % m.n_buckets + le) % m.n_buckets := by
            have e1 : w + (d + le - 16) + m.n_buckets =
                (w + d) + (le + (m.n_buckets - 16)) := by omega
            calc (w + (d + le - 16)) % m.n_buckets
                = (w + (d + le - 16) + m.n_buckets) % m.n_buckets :=
                  (Nat.add_mod_right _ _).symm
            _ = ((w + d) + (le + (m.n_buckets - 16))) % m.n_buckets := by rw [e1]
            _ = ((w + d) % m.n_buckets + (le + (m.n_buckets - 16))) % m.n_buckets :=
                  (Nat.mod_add_mod _ _ _).symm
            _ = (idx + (le + (m.n_buckets - 16))) % m.n_buckets := by
                  rw [hwd]
            _ = ((idx + (m.n_buckets - 16)) + le) % m.n_buckets := by
                  congr 1
                  omega
            _ = ((idx + (m.n_buckets - 16)) % m.n_buckets + le) % m.n_buckets :=
                  (Nat.mod_add_mod _ _ _).symm
          refine ⟨d + le - 16, hl16, ?_, ?_⟩
          · intro hcontra
            rw [hpos] at hcontra
            have hstep : ((idx + (m.n_buckets - 16)) % m.n_buckets + le) % m.n_buckets =
                (idx + (m.n_buckets - 16 + le)) % m.n_buckets := by
              calc ((idx + (m.n_buckets - 16)) % m.n_buckets + le) % m.n_buckets
                  = ((idx + (m.n_buckets - 16)) + le) % m.n_buckets := Nat.mod_add_mod _ _ _
              _ = (idx + (m.n_buckets - 16 + le)) % m.n_buckets := by
                    congr 1
                    omega
            rw [hstep] at hcontra
            have hzero : (m.n_buckets - 16 + le) % m.n_buckets = 0 % m.n_buckets :=
              Nat.ModEq.add_left_cancel' idx (by
                show (idx + (m.n_buckets - 16 + le)) % m.n_buckets =
                  (idx + 0) % m.n_buckets
                rw [Nat.add_zero, Nat.mod_eq_of_lt hidx]
                exact hcontra)
            rw [Nat.mod_eq_of_lt (by omega), Nat.zero_mod] at hzero
            omega
          · rw [hpos]
            exact hble
      · rw [if_neg hcond] at hdec
        exact absurd hdec (by decide)

end Map

namespace Map

variable {K V : Type} [DecidableEq K]

/-- The reclaim decision is always EMPTY or TOMBSTONE. -/
theorem decide_tombstone_or_empty_cases (m : Map K V) (index : Nat) :
    m.decide_tombstone_or_empty index = metadata.empty ∨
      m.decide_tombstone_or_empty index = metadata.tombstone := by
  by_cases h16 : m.n_buckets = GROUP_SIZE
  · left
    unfold decide_tombstone_or_empty
    rw [if_pos h16]
  · rw [decide_eq m index h16]
    by_cases hc : ((sse.find_first ((sse.Group.from_slice
          (m.metadata.drop index)).to_empties)).getD GROUP_SIZE + GROUP_SIZE) -
        ((sse.find_last ((sse.Group.from_slice (m.metadata.drop
          (fast_rem (wrappingSub64 index GROUP_SIZE) m.n_buckets))).to_empties)).getD 0)
        < GROUP_SIZE
    · left
      rw [if_pos hc]
    · right
      rw [if_neg hc]

/-- Probe stability under `remove`'s writes: a key found at bucket `i ≠ idx`
before freeing bucket `idx` is still found at `i` afterwards, whether the
freed byte became EMPTY (protected by the straddle property) or TOMBSTONE. -/
theorem probe_full_stable_remove {m mf : Map K V} (hd : Dims m) (hdf : Dims mf)
    (hh : mf.hasher = m.hasher) (hn : mf.n_buckets = m.n_buckets) {idx : Nat}
    (hidx : idx < m.n_buckets)
    (hbyte : ∀ j, j < m.n_buckets → j ≠ idx → mf.byteAt j = m.byteAt j)
    (hslot : ∀ j, j < m.n_buckets → j ≠ idx →
      mf.storage.getD j none = m.storage.getD j none)
    (hslotidx : mf.storage.getD idx none = none)
    (hsafe : mf.byteAt idx = metadata.EMPTY → m.n_buckets ≠ 16 →
      ∀ w, w < m.n_buckets → ∀ d, d < 16 → (w + d) % m.n_buckets = idx →
        ∃ l, l < 16 ∧ (w + l) % m.n_buckets ≠ idx ∧
          m.byteAt ((w + l) % m.n_buckets) = metadata.EMPTY)
    {k' : K} {i : Nat} (hii : i ≠ idx) (hi : i < m.n_buckets)
    (hmi : matchKeyAt m k' i) (hbi : m.byteAt i = h2Of m k')
    (hfind : m.probe_find k' = some (.Full i)) :
    mf.probe_find k' = some (.Full i) := by
  have hnm : ¬ matchKeyAt mf k' idx := by
    rintro ⟨v0, hv0⟩
    rw [hslotidx] at hv0
    exact Option.noConfusion hv0
  rw [probe_find_eq_findSome? hd k'] at hfind
  rw [probe_find_eq_findSome? hdf k', h2Of_congr hh hn, homeOf_congr hh hn, hn]
  refine findSome?_rel ?_ ?_ hfind
  · intro j _ hfj
    have hw : windowStart (homeOf m k') m.n_buckets j < m.n_buckets :=
      windowStart_lt hd.pos j
    set w := windowStart (homeOf m k') m.n_buckets j with hwdef
    rw [stepResult_eq_none_iff] at hfj ⊢
    obtain ⟨hcand, hemp⟩ := hfj
    have hcand' := (probeCandidates_eq_none_iff hd hw).mp hcand
    have hnoE := (group_first_empty_eq_none_iff hd hw).mp hemp
    have hplt : ∀ l0 : Nat, (w + l0) % m.n_buckets < m.n_buckets :=
      fun l0 => Nat.mod_lt _ hd.pos
    constructor
    · rw [probeCandidates_eq_none_iff hdf (by rw [hn]; exact hw), hn]
      intro l hl hb
      by_cases hpi : (w + l) % m.n_buckets = idx
      · rw [hpi]
        exact hnm
      · rw [matchKeyAt_congr (hslot _ (hplt l) hpi)]
        exact hcand' l hl (by rw [← hbyte _ (hplt l) hpi]; exact hb)
    · rw [group_first_empty_eq_none_iff hdf (by rw [hn]; exact hw), hn]
      intro l hl
      by_cases hpi : (w + l) % m.n_buckets = idx
      · rw [hpi]
        intro hE
        by_cases h16 : m.n_buckets = 16
        · have hilt16 : i < 16 := by rw [← h16]; exact hi
          have hwlt16 : w < 16 := by rw [← h16]; exact hw
          have hli : (w + ((i + 16 - w) % m.n_buckets)) % m.n_buckets = i := by
            rw [h16, Nat.add_mod_mod, show w + (i + 16 - w) = i + 16 by omega,
              Nat.add_mod_right, Nat.mod_eq_of_lt hilt16]
          refine hcand' ((i + 16 - w) % m.n_buckets)
            (by rw [h16]; exact Nat.mod_lt _ (by norm_num))
            (by rw [hli]; exact hbi) ?_
          rw [hli]
          exact hmi
        · obtain ⟨l2, hl2, -, hE2⟩ := hsafe hE h16 w hw l hl hpi
          exact hnoE l2 hl2 hE2
      · rw [hbyte _ (hplt l) hpi]
        exact hnoE l hl
  · intro j _ hfj
    exact stepResult_full_stable hd hdf hn hbyte hslot hnm (windowStart_lt hd.pos j) hii hfj

/-- The shape of `remove` on a key found FULL at `idx`: one storage clear,
one metadata write of the reclaim decision, counter updates. -/
theorem remove_full_spec {m : Map K V} (hd : Dims m) {k : K} {idx : Nat} {kv : K × V}
    (hp : m.probe_find k = some (.Full idx)) (hidx : idx < m.n_buckets)
    (hs : m.storage.getD idx none = some kv) :
    ∃ mf, m.remove k = some (mf, some kv.2) ∧ Dims mf ∧
      mf.hasher = m.hasher ∧ mf.n_buckets = m.n_buckets ∧
      (∀ j, mf.storage.getD j none =
        if j = idx then none else m.storage.getD j none) ∧
      (∀ j, j < m.n_buckets → mf.byteAt j =
        if j = idx then ({ m with storage := m.storage.set idx none } :
          Map K V).decide_tombstone_or_empty idx else m.byteAt j) := by
  set m1 : Map K V := { m with storage := m.storage.set idx none } with hm1
  have hn1 : m1.n_buckets = m.n_buckets := List.length_set _ _ _
  have hd1 : Dims m1 := hd.storage_update (List.length_set _ _ _)
  set mv : Nat := m1.decide_tombstone_or_empty idx with hmv
  set m2 : Map K V := m1.set_metadata idx mv with hm2
  obtain ⟨mf, hmf⟩ : ∃ mf : Map K V, mf =
      ({ hasher := m.hasher
         n_items := m.n_items - 1
         n_occupied := if metadata.is_empty mv then m.n_occupied - 1 else m.n_occupied
         storage := m2.storage
         metadata := m2.metadata } : Map K V) := ⟨_, rfl⟩
  have hrem : m.remove k = some (mf, some kv.2) := by
    rw [hmf]
    unfold Map.remove
    simp only [hp, hs]
    rfl
  have hidx1 : idx < m1.n_buckets := by rw [hn1]; exact hidx
  have hd2 : Dims m2 := hd1.set_metadata_preserved hidx1 mv
  have hdmf : Dims mf := by
    rw [hmf]
    exact hd2.relabel rfl m.hasher (m.n_items - 1)
      (if metadata.is_empty mv then m.n_occupied - 1 else m.n_occupied)
  have hnbf : mf.n_buckets = m.n_buckets := by
    rw [hmf]
    show m2.storage.length = m.n_buckets
    rw [hm2, set_metadata_storage]
    exact List.length_set _ _ _
  refine ⟨mf, hrem, hdmf, by rw [hmf], hnbf, ?_, ?_⟩
  · intro j
    rw [hmf]
    show m2.storage.getD j none = _
    rw [hm2, set_metadata_storage]
    by_cases hji : j = idx
    · subst hji
      rw [if_pos rfl]
      show (m.storage.set j none).getD j none = none
      exact getD_set_eq hidx none none
    · rw [if_neg hji]
      show (m.storage.set idx none).getD j none = m.storage.getD j none
      exact getD_set_ne (fun h => hji h.symm) none none
  · intro j hj
    rw [hmf]
    show m2.byteAt j = _
    rw [hm2]
    have hjb : j < m1.n_buckets := by rw [hn1]; exact hj
    exact byteAt_set_metadata hd1 hidx1 mv hjb

/-- `remove k` never changes what `get` reports for a different key. -/
theorem remove_get_stable {m : Map K V} (hW : WF m) {k k' : K} (hkk : k ≠ k')
    {v' : V} (hget' : m.get k' = some (some v')) :
    ∀ p, m.remove k = some p → p.1.get k' = some (some v') := by
  intro p hrem
  have hd := hW.dims
  obtain ⟨i, hi, hsi⟩ := stored_of_get hd hget'
  rcases hp : m.probe_find k with _ | pr
  · rw [Map.remove, hp] at hrem
    exact Option.noConfusion hrem
  rcases pr with ⟨e0, h20⟩ | idx
  · rw [Map.remove] at hrem
    simp only [hp] at hrem
    have hpm : (m, (none : Option V)) = p := by simpa using hrem
    rw [← hpm]
    exact hget'
  · rcases hs : m.storage.getD idx none with _ | kv
    · rw [Map.remove] at hrem
      simp only [hp, hs] at hrem
      exact Option.noConfusion hrem
    · have hidx : idx < m.n_buckets := (probe_find_index_lt hd hp).2 idx rfl
      obtain ⟨mf, hremeq, hdmf, hhash, hnb, hslotAt, hbyteAt⟩ :=
        remove_full_spec hd hp hidx hs
      rw [hremeq] at hrem
      have hpm : (mf, some kv.2) = p := by simpa using hrem
      rw [← hpm]
      show mf.get k' = some (some v')
      -- the other key's stored facts
      have hbi : m.byteAt i = h2Of m k' := by
        have hsync := (slotTag_some_iff hsi).mp (hW.sync i hi)
        rw [hsync]
        show metadata.from_h2 (h2Of m ((k', v') : K × V).1) = h2Of m k'
        exact from_h2_of_lt (h2Of_lt_128 m k')
      have hfindk' : m.probe_find k' = some (.Full i) :=
        (slotFind_some_iff hsi).mp (hW.find i hi)
      -- the removed slot held k, not k'
      have hkvk : kv.1 = k := by
        have hchar := hp
        rw [probe_find_eq_findSome? hd k] at hchar
        obtain ⟨j, -, hj⟩ := List.exists_of_findSome?_eq_some hchar
        rw [stepResult_eq_full_iff,
          probeCandidates_eq_some_iff hd (windowStart_lt hd.pos j)] at hj
        obtain ⟨l, -, -, -, hm, -⟩ := hj
        obtain ⟨vk, hvk⟩ := hm
        rw [hs] at hvk
        exact congrArg (fun o => (o.getD (k, vk)).1) hvk
      have hii : i ≠ idx := by
        intro h
        subst h
        rw [hsi] at hs
        have : k' = kv.1 := congrArg (fun o => (o.getD (k', v')).1) hs
        rw [hkvk] at this
        exact hkk this.symm
      -- facts about the freed bucket
      have hbyte' : ∀ j, j < m.n_buckets → j ≠ idx → mf.byteAt j = m.byteAt j := by
        intro j hj hji
        rw [hbyteAt j hj, if_neg hji]
      have hslot' : ∀ j, j < m.n_buckets → j ≠ idx →
          mf.storage.getD j none = m.storage.getD j none := by
        intro j _ hji
        rw [hslotAt j, if_neg hji]
      have hslotidx : mf.storage.getD idx none = none := by
        rw [hslotAt idx, if_pos rfl]
      have hbyteidx : mf.byteAt idx = ({ m with storage := m.storage.set idx none } :
          Map K V).decide_tombstone_or_empty idx := by
        rw [hbyteAt idx hidx, if_pos rfl]
      have hsafe : mf.byteAt idx = metadata.EMPTY → m.n_buckets ≠ 16 →
          ∀ w, w < m.n_buckets → ∀ d, d < 16 → (w + d) % m.n_buckets = idx →
            ∃ l, l < 16 ∧ (w + l) % m.n_buckets ≠ idx ∧
              m.byteAt ((w + l) % m.n_buckets) = metadata.EMPTY := by
        intro hE hn16
        have hdec1 : ({ m with storage := m.storage.set idx none } :
            Map K V).decide_tombstone_or_empty idx = metadata.empty := by
          rw [← hbyteidx]
          exact hE
        have hdecm : m.decide_tombstone_or_empty idx = metadata.empty :=
          (decide_tombstone_or_empty_congr
            ({ m with storage := m.storage.set idx none } : Map K V) m
            rfl (List.length_set _ _ _) idx).symm.trans hdec1
        have hbidxm : m.byteAt idx ≠ metadata.EMPTY := by
          have hsync := (slotTag_some_iff hs).mp (hW.sync idx hidx)
          rw [hsync]
          have hlt := from_h2_lt (h2Of m kv.1)
          intro hEE
          rw [hEE] at hlt
          exact absurd hlt (by decide)
        exact empty_decision_straddle hd hidx hn16 hdecm hbidxm
      have hmi : matchKeyAt m k' i := ⟨v', hsi⟩
      have hprobe := probe_full_stable_remove hd hdmf hhash hnb hidx hbyte' hslot'
        hslotidx hsafe hii hi hmi hbi hfindk'
      have hsif : mf.storage.getD i none = some (k', v') := by
        rw [hslotAt i, if_neg hii]
        exact hsi
      unfold Map.get
      simp only [hprobe, hsif]

end Map

/-- **C10.** Removing one key never disturbs another: on a well-formed table
holding distinct keys `k ≠ k'` with `get k' = Some v'`, after `remove k`
returns, `get k'` still yields exactly `v'` — whether the freed bucket was
reclaimed to EMPTY (guarded by `decide_tombstone_or_empty`'s straddle
condition, which guarantees every probe window covering the freed bucket
already held an EMPTY byte) or left as a TOMBSTONE. -/
theorem c10_remove_preserves_other_lookups {K V : Type} [DecidableEq K]
    (m : Map K V) (hW : Map.WF m) (k k' : K) (hkk : k ≠ k') (v' : V)
    (hget' : m.get k' = some (some v')) :
    ∀ p, m.remove k = some p → p.1.get k' = some (some v') :=
  Map.remove_get_stable hW hkk hget'

/-- A concrete 32-bucket table holding `(0, 42)` and `(1, 7)` at their home
buckets 0 and 1. -/
def wthree : Map Nat Nat :=
  { hasher := idHasher
    n_items := 2
    n_occupied := 2
    storage := some (0, 42) :: some (1, 7) :: List.replicate 30 none
    metadata := (0 :: 1 :: List.replicate 30 metadata.EMPTY) ++
      (0 :: 1 :: List.replicate 14 metadata.EMPTY) }

theorem wthree_dims : Map.Dims wthree :=
  ⟨⟨5, by norm_num, by norm_num, by decide⟩, by decide, by decide⟩

theorem wthree_WF : Map.WF wthree :=
  ⟨wthree_dims, by decide, by decide, by decide⟩

/-- Witness for `c10_remove_preserves_other_lookups`: removing key 0 from
the concrete two-key table leaves `get 1 = Some 7`. -/
theorem c10_remove_preserves_other_lookups_witness :
    (wthree.remove 0).elim False (fun p => p.1.get 1 = some (some 7)) := by
  rcases hrem : wthree.remove 0 with _ | p
  · have hsome : (wthree.remove 0).isSome = true := by decide
    rw [hrem] at hsome
    simp at hsome
  · exact c10_remove_preserves_other_lookups wthree wthree_WF 0 1 (by decide) 7
      (by decide) p hrem

end Cornedbeef